import Mathlib

/-!
# Table sorter of `overview_servers.js`

A shallow embedding of `sortTable(n)` from
`src/asset/static/asset/js/overview_servers.js`, the one function of the
repository, and the properties of it that are settled here.

## Modelling

* The table is the list `table.rows`; a row is the list of the `innerHTML`
  texts of its `TD` elements, so `rows[i].getElementsByTagName("TD")[n]` is
  the `n`-th entry of the `i`-th row, and reading `.innerHTML` of a missing
  entry (`undefined`) is the fault (a `TypeError` that leaves the function).
* `String.prototype.toLowerCase` depends on the Unicode case tables of the
  host; it is a parameter `lower` of every definition. `asciiLower` is its
  restriction to ASCII text, used for the concrete tables.
* `<` and `>` on strings compare UTF-16 code units (`strLt`).
* A Number that is not `NaN` is represented by the integer `value * 2^1074`
  (every finite double is a multiple of `2^-1074`), the two infinities by
  `± 2^2098`, so that `<` and `>` on Numbers are `<` and `>` on `Int`
  (`-0` and `0` are the same Number for both). `NaN` is `none`.
* The column index `n` is a natural number.
* The `while` loop runs on fuel; `sortTable` gives it more fuel than any run
  can use (`runSpec_exists`, `whileLoop_mono`).
* The state carries a trace of the swaps and of the direction flip. The
  trace is not a variable of the source; nothing reads it.
-/

namespace OverviewServers

/-! ## Strings and Numbers of the host -/

/-- UTF-16 code units of one character -/
def utf16 (c : Char) : List Nat :=
  if c.toNat < 0x10000 then [c.toNat]
  else [0xD800 + (c.toNat - 0x10000) / 0x400, 0xDC00 + (c.toNat - 0x10000) % 0x400]

/-- UTF-16 code units of a string, which is what JavaScript compares -/
def codeUnits (s : String) : List Nat :=
  s.data.flatMap utf16

/-- Lexicographic `<` on sequences of code units -/
def ltUnits : List Nat → List Nat → Bool
  | [], [] => false
  | [], _ :: _ => true
  | _ :: _, [] => false
  | a :: as, b :: bs => decide (a < b) || (a == b && ltUnits as bs)

/-- JavaScript `a < b` on two strings -/
def strLt (a b : String) : Bool :=
  ltUnits (codeUnits a) (codeUnits b)

/-- JavaScript `a > b` on two strings -/
def strGt (a b : String) : Bool :=
  strLt b a

/-- `toLowerCase` on ASCII text: `A`..`Z` become `a`..`z` -/
def asciiLower (s : String) : String :=
  ⟨s.data.map Char.toLower⟩

/-- Characters the expression `/[^\d.-]/g` leaves in place -/
def keptChar (c : Char) : Bool :=
  c.isDigit || c == '.' || c == '-'

/-- The call `s.replace(/[^\d.-]/g, '')`: every character that is not a
digit, a dot or a minus sign is removed -/
def stripNonNumeric (s : String) : List Char :=
  s.data.filter keptChar

/-- Value of a sequence of decimal digits -/
def digitsValue (ds : List Char) : Nat :=
  ds.foldl (fun acc c => 10 * acc + (c.toNat - 48)) 0

/-- Round-to-nearest, ties-to-even, of the quotient `num / den` -/
def roundHalfEven (num den : Nat) : Nat :=
  let q := num / den
  let r := num % den
  if 2 * r > den ∨ (2 * r = den ∧ q % 2 = 1) then q + 1 else q

/-- The largest `e` below `2048` with `2 ^ (e + 52) ≤ q`, or `0` when there is
none: the number of bits by which `q` exceeds 53 bits, found by bisection -/
def binadeShift (q : Nat) : Nat :=
  [1024, 512, 256, 128, 64, 32, 16, 8, 4, 2, 1].foldl
    (fun e b => if q >>> (e + b + 52) ≠ 0 then e + b else e) 0

/-- The Number value (a double) of the decimal `m / 10^s`, times `2^1074`
(`x <<< k` is `x * 2^k`). Doubles below `2^-1021` are spaced `2^-1074`
apart and the spacing doubles with every binade above, so the value is
rounded to a multiple of `2^e` where `e` is the number of bits it has beyond
53; a result of `2^1024` or more is `Infinity`. -/
def numberValue (m s : Nat) : Nat :=
  let num := m <<< 1074
  let den := 10 ^ s
  let e := binadeShift (num / den)
  let v := roundHalfEven num (den <<< e) <<< e
  if v >>> 2098 ≠ 0 then 1 <<< 2098 else v

/-- The call `parseFloat(s)` for a string of digits, dots and minus signs:
the longest prefix that is a decimal literal (an optional `-`, then digits
with an optional fraction, or a dot and digits) is converted, and `NaN`
(`none`) is the result when there is no such prefix. Whitespace, `+`,
exponents and `Infinity` cannot occur in the stripped text. -/
def parseFloat (s : List Char) : Option Int :=
  let neg := s.head? == some '-'
  let body := if neg then s.drop 1 else s
  let ip := body.takeWhile Char.isDigit
  let rest := body.dropWhile Char.isDigit
  let fp := if rest.head? == some '.' then (rest.drop 1).takeWhile Char.isDigit else []
  if ip.isEmpty && fp.isEmpty then none
  else
    let v : Int := numberValue (digitsValue (ip ++ fp)) fp.length
    some (if neg then -v else v)

/-! ## The table -/

/-- A row: the `innerHTML` of each of its `TD` elements, in document order -/
abbrev Row := List String

/-- The live collection `table.rows` -/
abbrev Table := List Row

/-- The variable `dir` -/
inductive Dir where
  | asc
  | desc
deriving DecidableEq, Repr

/-- What the trace records: a swap, with the direction in force and the
index `i` of the upper row, or the change of direction -/
inductive Event where
  | swap (dir : Dir) (i : Nat)
  | flip
deriving DecidableEq, Repr

/-- The variables of `sortTable` that live across iterations of the `while`
loop, and the trace -/
structure State where
  rows : Table
  dir : Dir
  switchcount : Nat
  trace : List Event
deriving DecidableEq, Repr

/-- How an invocation ends: the loop exits, or a `TypeError` leaves the
function; either way the table stays as it is at that point -/
inductive Outcome where
  | done (s : State)
  | fault (s : State)
deriving DecidableEq, Repr

/-- The state an outcome ends in -/
def Outcome.state : Outcome → State
  | .done s => s
  | .fault s => s

/-- Result of one run of the `for` loop -/
inductive Scan where
  | fault
  | noSwitch
  | switchAt (i : Nat)
deriving DecidableEq, Repr

/-- Lines 22 to 43: the test that sets `shouldSwitch` for the cells `x` and
`y` of two adjacent rows -/
def shouldSwitch (lower : String → String) (dir : Dir) (x y : String) : Bool :=
  let xVal := lower x
  let yVal := lower y
  let xNum := parseFloat (stripNonNumeric xVal)
  let yNum := parseFloat (stripNonNumeric yVal)
  match dir with
  | .asc =>
    match xNum, yNum with
    | some a, some b => decide (a > b)
    | _, _ => strGt xVal yVal
  | .desc =>
    match xNum, yNum with
    | some a, some b => decide (a < b)
    | _, _ => strLt xVal yVal

/-- The loop `for (i = 1; i < rows.length - 1; i++)`, given the rows from
index `i` on: it reads cell `n` of `rows[i]` and of `rows[i + 1]`, faults
when one of them is missing, leaves with `break` at the first pair that
sets `shouldSwitch`, and ends when fewer than two rows remain -/
def forLoop (lower : String → String) (dir : Dir) (n : Nat) : List Row → Nat → Scan
  | x :: y :: rest, i =>
    match x[n]?, y[n]? with
    | some xc, some yc =>
      if shouldSwitch lower dir xc yc then .switchAt i
      else forLoop lower dir n (y :: rest) (i + 1)
    | _, _ => .fault
  | _, _ => .noSwitch

/-- The call `rows[i].parentNode.insertBefore(rows[i + 1], rows[i])`: the
row at `i + 1` is taken out and put back in front of the row at `i` -/
def insertBefore {α : Type} (rows : List α) (i : Nat) : List α :=
  match rows[i + 1]? with
  | some r => (rows.eraseIdx (i + 1)).insertIdx i r
  | none => rows

/-- The `while (switching)` loop; each unit of fuel pays for one iteration,
and `none` means the fuel ran out. After the `for` loop `shouldSwitch` is
true exactly when the loop left with `break` (every iteration resets it, and
it is never true when a pass starts), so the branch at line 46 is taken on
`switchAt i`, with `i` the index of the `break`, and the branch at line 50
on `noSwitch`. -/
def whileLoop (lower : String → String) (n : Nat) : Nat → State → Option Outcome
  | 0, _ => none
  | fuel + 1, s =>
    match forLoop lower s.dir n (s.rows.drop 1) 1 with
    | .fault => some (.fault s)
    | .switchAt i =>
      whileLoop lower n fuel
        { s with
          rows := insertBefore s.rows i
          switchcount := s.switchcount + 1
          trace := s.trace ++ [.swap s.dir i] }
    | .noSwitch =>
      if s.switchcount = 0 ∧ s.dir = .asc then
        whileLoop lower n fuel { s with dir := .desc, trace := s.trace ++ [.flip] }
      else some (.done s)

/-- State at entry: `dir = "asc"`, `switchcount = 0` -/
def initial (table : Table) : State :=
  { rows := table, dir := .asc, switchcount := 0, trace := [] }

/-- Fuel that no run on `table` exhausts -/
def enoughFuel (table : Table) : Nat :=
  table.length * table.length + 2

/-- The function `sortTable(n)` on the table found under `serverTable` -/
def sortTable (lower : String → String) (n : Nat) (table : Table) : Option Outcome :=
  whileLoop lower n (enoughFuel table) (initial table)

/-! ## Vocabulary of the properties -/

/-- The swap test of direction `dir` on two rows: both have cell `n` and
the cells set `shouldSwitch` -/
def triggers (lower : String → String) (dir : Dir) (n : Nat) (x y : Row) : Bool :=
  match x[n]?, y[n]? with
  | some xc, some yc => shouldSwitch lower dir xc yc
  | _, _ => false

/-- No adjacent pair of the rows triggers the swap test of `dir` -/
def AdjacentOrdered (lower : String → String) (dir : Dir) (n : Nat) (rows : List Row) : Prop :=
  List.Chain' (fun x y => triggers lower dir n x y = false) rows

/-- Every data row (index 1 and up) has a cell at index `n` -/
def ValidColumn (n : Nat) (table : Table) : Prop :=
  ∀ r ∈ table.drop 1, n < r.length

/-- Boolean form of `AdjacentOrdered`, by which it is decided -/
def adjacentOrdered (lower : String → String) (dir : Dir) (n : Nat) : List Row → Bool
  | x :: y :: rest => !triggers lower dir n x y && adjacentOrdered lower dir n (y :: rest)
  | _ => true

instance (lower : String → String) (dir : Dir) (n : Nat) (rows : List Row) :
    Decidable (AdjacentOrdered lower dir n rows) :=
  decidable_of_iff (adjacentOrdered lower dir n rows = true) (by
    unfold AdjacentOrdered
    induction rows with
    | nil => simp [adjacentOrdered]
    | cons x l ih =>
      cases l with
      | nil => simp [adjacentOrdered]
      | cons y rest => simp [adjacentOrdered, List.chain'_cons, ih])

instance (n : Nat) (table : Table) : Decidable (ValidColumn n table) := by
  unfold ValidColumn; infer_instance

/-- The Number the cell parses to under the strip-and-parse rule -/
def cellNumber (lower : String → String) (cell : String) : Option Int :=
  parseFloat (stripNonNumeric (lower cell))

/-- The Number in cell `n` of a row (`xNum`), when the row has the cell and
the cell parses -/
def rowNumber (lower : String → String) (n : Nat) (r : Row) : Option Int :=
  r[n]?.bind (cellNumber lower)

/-- The lowercased text of cell `n` of a row (`xVal`) -/
def rowText (lower : String → String) (n : Nat) (r : Row) : Option String :=
  r[n]?.map lower

/-- Two rows in non-decreasing numeric order of cell `n` -/
def NumberLe (lower : String → String) (n : Nat) (x y : Row) : Prop :=
  ∃ a b, rowNumber lower n x = some a ∧ rowNumber lower n y = some b ∧ a ≤ b

/-- Two rows in non-decreasing order of the lowercased text of cell `n` -/
def TextLe (lower : String → String) (n : Nat) (x y : Row) : Prop :=
  ∃ a b, rowText lower n x = some a ∧ rowText lower n y = some b ∧ strGt a b = false

/-- The rows whose cell `n` parses as a number are in ascending numeric
order relative to each other -/
def NumericRowsAscending (lower : String → String) (n : Nat) (rows : List Row) : Prop :=
  List.Pairwise (fun a b : Int => a ≤ b) (rows.filterMap (rowNumber lower n))

/-- Number of pairs of positions `i < j` whose elements satisfy `gt` -/
def inversions {α : Type} (gt : α → α → Bool) : List α → Nat
  | [] => 0
  | x :: l => l.countP (gt x) + inversions gt l

/-- The indices `idxs` are, in order, the indices at which successive runs
of the `for` loop in direction `dir` leave with `break`, each followed by
the move it causes -/
def SwapRun (lower : String → String) (dir : Dir) (n : Nat) : Table → List Nat → Prop
  | _, [] => True
  | rows, i :: idxs =>
    forLoop lower dir n (rows.drop 1) 1 = .switchAt i ∧
      SwapRun lower dir n (insertBefore rows i) idxs

/-- The state after the swaps at `idxs`, made one after the other -/
def afterSwaps (s : State) (idxs : List Nat) : State :=
  { rows := idxs.foldl insertBefore s.rows
    dir := s.dir
    switchcount := s.switchcount + idxs.length
    trace := s.trace ++ idxs.map (Event.swap s.dir) }

/-- The state after the change of direction -/
def flipped (s : State) : State :=
  { s with dir := .desc, trace := s.trace ++ [.flip] }

/-- What one invocation on `table` does: it ends in `out` whatever the fuel
from `enoughFuel` on; it runs in the final direction `dir`, which is
descending exactly when the first ascending pass found nothing to swap; it
makes the swaps at `idxs`, all in that direction; and it stops at the first
pass that finds nothing to swap or that faults -/
structure RunSpec (lower : String → String) (n : Nat) (table : Table) (out : Outcome)
    (dir : Dir) (idxs : List Nat) : Prop where
  total : ∀ fuel, enoughFuel table ≤ fuel → whileLoop lower n fuel (initial table) = some out
  flip_iff : dir = .desc ↔ forLoop lower .asc n (table.drop 1) 1 = .noSwitch
  swaps : SwapRun lower dir n table idxs
  state : out.state =
    afterSwaps (if dir = .desc then flipped (initial table) else initial table) idxs
  last : forLoop lower dir n (out.state.rows.drop 1) 1 =
    match out with
    | .done _ => .noSwitch
    | .fault _ => .fault

/-- The indices of the swaps that a trace records, in order -/
def swapIndices : List Event → List Nat
  | [] => []
  | .swap _ i :: rest => i :: swapIndices rest
  | .flip :: rest => swapIndices rest

/-- The rows of the table, each with its index in the input, after the
swaps that the trace records: who stands where at the end -/
def arrangement (table : Table) (trace : List Event) : List (Nat × Row) :=
  (swapIndices trace).foldl insertBefore table.enum

/-- The state with the header row replaced by `hd` -/
def withHeader (hd : Row) (s : State) : State :=
  { s with rows := hd :: s.rows.drop 1 }

/-- The outcome with the header row replaced by `hd` -/
def Outcome.withHeader (hd : Row) : Outcome → Outcome
  | .done s => .done (OverviewServers.withHeader hd s)
  | .fault s => .fault (OverviewServers.withHeader hd s)

/-! ## The reference sort of the specification -/

/-- After the comparison rule of the specification (section 4.1), read as
an order on the keys: in direction `dir` the row `x` may stand before the
row `y`. When both cells are valid numbers they are compared numerically,
otherwise the lowercased texts are compared. -/
def keyLe (lower : String → String) (dir : Dir) (n : Nat) (x y : Row) : Bool :=
  match rowNumber lower n x, rowNumber lower n y with
  | some a, some b =>
    match dir with
    | .asc => decide (a ≤ b)
    | .desc => decide (b ≤ a)
  | _, _ =>
    match rowText lower n x, rowText lower n y with
    | some s, some t =>
      match dir with
      | .asc => !strGt s t
      | .desc => !strLt s t
    | _, _ => true

/-- Every adjacent pair of the rows is in the key order of `dir` -/
def keyOrdered (lower : String → String) (dir : Dir) (n : Nat) : List Row → Bool
  | x :: y :: rest => keyLe lower dir n x y && keyOrdered lower dir n (y :: rest)
  | _ => true

/-- After the specification (section 9): a stable sort of the data rows by
the key order of `dir`, here insertion sort -/
def stableSort (lower : String → String) (dir : Dir) (n : Nat) (data : List Row) : List Row :=
  List.insertionSort (fun x y => keyLe lower dir n x y = true) data

/-- After the specification: the header stays first, and the data rows are
stably sorted, ascending if the input has an adjacent pair out of ascending
order, descending otherwise -/
def referenceSort (lower : String → String) (n : Nat) : Table → Table
  | [] => []
  | header :: data =>
    header ::
      (if keyOrdered lower .asc n data then stableSort lower .desc n data
       else stableSort lower .asc n data)

/-- The cells of column `n` of the rows are all numeric or all non-numeric -/
def Homogeneous (lower : String → String) (n : Nat) (data : List Row) : Prop :=
  (∀ r ∈ data, (rowNumber lower n r).isSome) ∨
    (∀ r ∈ data, ∃ c, r[n]? = some c ∧ cellNumber lower c = none)

/-! ## Tables of the examples -/

/-- The data rows of `percentTable` -/
def percentData : List Row :=
  [["30%"], ["5%"], ["100%"]]

/-- A header and the percentages 30%, 5%, 100% -/
def percentTable : Table :=
  ["load"] :: percentData

/-- Two rows of two cells, to be sorted on the second -/
def twoColumnTable : Table :=
  [["name", "cpu"], ["web", "70"], ["db", "9"]]

/-- The data rows of `fruitTable` -/
def fruitData : List Row :=
  [["banana"], ["Apple"], ["cherry"]]

/-- A header and three names, one of them capitalised -/
def fruitTable : Table :=
  ["fruit"] :: fruitData

/-- The mixed column 10, abc, 2 -/
def mixedTable : Table :=
  [["value"], ["10"], ["abc"], ["2"]]

/-- A header with a cell and one data row without cells -/
def loneEmptyRowTable : Table :=
  [["name"], []]

/-- Two data rows with a cell and one without -/
def missingCellTable : Table :=
  [["name"], ["b"], ["a"], []]

/-- A mixed column on which the ascending test runs in a circle -/
def cycleTable : Table :=
  [["key"], ["abc5"], ["abd3"], ["abd"]]

/-- A header without `TD` cells and three names in ascending order -/
def ascendingTable : Table :=
  [[], ["alpha"], ["beta"], ["gamma"]]

/-- A header and one data row -/
def loneRowTable : Table :=
  [["name"], ["solo"]]

/-- Two rows with the same cell in column 0, told apart by column 1 -/
def tieTable : Table :=
  [["name", "id"], ["b", "1"], ["a", "2"], ["b", "3"]]

/-- Two rows whose cells are the same number, written in two ways -/
def equalKeysTable : Table :=
  [["host"], ["7"], ["7.0"]]

/-! ## The order on strings -/

theorem ltUnits_irrefl (a : List Nat) : ltUnits a a = false := by
  induction a with
  | nil => rfl
  | cons x xs ih => simp [ltUnits, ih]

theorem ltUnits_asymm : ∀ (a b : List Nat), ltUnits a b = true → ltUnits b a = false
  | [], [], _ => rfl
  | [], _ :: _, _ => rfl
  | _ :: _, [], h => by simp [ltUnits] at h
  | x :: xs, y :: ys, h => by
    simp only [ltUnits, Bool.or_eq_true, Bool.and_eq_true, decide_eq_true_eq, beq_iff_eq] at h
    simp only [ltUnits, Bool.or_eq_false_iff, Bool.and_eq_false_imp, decide_eq_false_iff_not,
      beq_iff_eq]
    rcases h with h | ⟨h1, h2⟩
    · exact ⟨by omega, fun e => by omega⟩
    · exact ⟨by omega, fun _ => ltUnits_asymm xs ys h2⟩

/-- Transitivity of "not greater": the order on code-unit sequences is total -/
theorem ltUnits_not_trans (a b c : List Nat)
    (h1 : ltUnits b a = false) (h2 : ltUnits c b = false) : ltUnits c a = false := by
  induction a generalizing b c with
  | nil => cases c <;> rfl
  | cons x xs ih =>
    cases b with
    | nil => simp [ltUnits] at h1
    | cons y ys =>
      cases c with
      | nil => simp [ltUnits] at h2
      | cons z zs =>
        simp only [ltUnits, Bool.or_eq_false_iff, Bool.and_eq_false_imp, decide_eq_false_iff_not,
          beq_iff_eq] at h1 h2 ⊢
        refine ⟨by omega, fun e => ?_⟩
        have hxy : y = x := by omega
        have hyz : z = y := by omega
        exact ih ys zs (h1.2 hxy) (h2.2 hyz)

/-! ## The swap test -/

theorem shouldSwitch_asymm (lower : String → String) (dir : Dir) (x y : String)
    (h : shouldSwitch lower dir x y = true) : shouldSwitch lower dir y x = false := by
  unfold shouldSwitch at h ⊢
  cases dir <;> simp only at h ⊢ <;>
    cases hx : parseFloat (stripNonNumeric (lower x)) <;>
    cases hy : parseFloat (stripNonNumeric (lower y)) <;>
    simp only [hx, hy, strGt, strLt, decide_eq_true_eq, decide_eq_false_iff_not] at h ⊢ <;>
    first
      | exact ltUnits_asymm _ _ h
      | omega

/-- The descending test is the ascending test with the cells exchanged -/
theorem shouldSwitch_desc (lower : String → String) (x y : String) :
    shouldSwitch lower .desc x y = shouldSwitch lower .asc y x := by
  unfold shouldSwitch
  cases hx : parseFloat (stripNonNumeric (lower x)) <;>
    cases hy : parseFloat (stripNonNumeric (lower y)) <;>
    simp [hx, hy, strGt, strLt]

theorem triggers_asymm (lower : String → String) (dir : Dir) (n : Nat) (x y : Row)
    (h : triggers lower dir n x y = true) : triggers lower dir n y x = false := by
  unfold triggers at h ⊢
  cases hx : x[n]? <;> cases hy : y[n]? <;> simp only [hx, hy] at h ⊢
  exact shouldSwitch_asymm lower dir _ _ h

theorem triggers_desc (lower : String → String) (n : Nat) (x y : Row) :
    triggers lower .desc n x y = triggers lower .asc n y x := by
  unfold triggers
  cases hx : x[n]? <;> cases hy : y[n]? <;> simp [shouldSwitch_desc]

/-! ## Moving a row up -/

theorem insertBefore_zero {α : Type} (x y : α) (l : List α) :
    insertBefore (x :: y :: l) 0 = y :: x :: l := by
  simp [insertBefore]

theorem insertBefore_succ {α : Type} (x : α) (l : List α) (i : Nat) :
    insertBefore (x :: l) (i + 1) = x :: insertBefore l i := by
  unfold insertBefore
  simp only [List.getElem?_cons_succ]
  cases h : l[i + 1]? with
  | none => rfl
  | some r => simp [List.insertIdx_succ_cons]

theorem insertBefore_perm {α : Type} : ∀ (l : List α) (i : Nat), (insertBefore l i).Perm l
  | [], i => by simp [insertBefore]
  | [x], 0 => by simp [insertBefore]
  | x :: y :: l, 0 => by rw [insertBefore_zero]; exact List.Perm.swap x y l
  | x :: l, i + 1 => by
    rw [insertBefore_succ]
    exact (insertBefore_perm l i).cons x

theorem insertBefore_length {α : Type} (l : List α) (i : Nat) :
    (insertBefore l i).length = l.length :=
  (insertBefore_perm l i).length_eq

/-! ## Inversions decrease with every swap -/

theorem inversions_le {α : Type} (gt : α → α → Bool) (l : List α) :
    inversions gt l ≤ l.length * l.length := by
  induction l with
  | nil => simp [inversions]
  | cons x l ih =>
    have := List.countP_le_length (gt x) (l := l)
    simp only [inversions, List.length_cons]
    nlinarith

theorem inversions_swap {α : Type} (gt : α → α → Bool) (x y : α) (l : List α)
    (hxy : gt x y = true) (hyx : gt y x = false) :
    inversions gt (y :: x :: l) + 1 = inversions gt (x :: y :: l) := by
  simp only [inversions, List.countP_cons, hxy, hyx]
  simp
  omega

theorem inversions_cons_perm {α : Type} (gt : α → α → Bool) (x : α) (l l' : List α)
    (hp : l'.Perm l) (h : inversions gt l' + 1 = inversions gt l) :
    inversions gt (x :: l') + 1 = inversions gt (x :: l) := by
  simp only [inversions, hp.countP_eq]
  omega

/-! ## The `for` loop -/

theorem forLoop_nil (lower : String → String) (dir : Dir) (n i : Nat) :
    forLoop lower dir n [] i = .noSwitch := by
  simp [forLoop]

theorem forLoop_single (lower : String → String) (dir : Dir) (n i : Nat) (x : Row) :
    forLoop lower dir n [x] i = .noSwitch := by
  simp [forLoop]

theorem forLoop_cons_cons (lower : String → String) (dir : Dir) (n i : Nat) (x y : Row)
    (rest : List Row) :
    forLoop lower dir n (x :: y :: rest) i =
      match x[n]?, y[n]? with
      | some xc, some yc =>
        if shouldSwitch lower dir xc yc then .switchAt i
        else forLoop lower dir n (y :: rest) (i + 1)
      | _, _ => .fault := by
  simp [forLoop]

/-- On two rows that both have cell `n`, the loop consults `triggers` -/
theorem forLoop_step (lower : String → String) (dir : Dir) (n i : Nat) (x y : Row)
    (rest : List Row) (hx : n < x.length) (hy : n < y.length) :
    forLoop lower dir n (x :: y :: rest) i =
      if triggers lower dir n x y then .switchAt i
      else forLoop lower dir n (y :: rest) (i + 1) := by
  rw [forLoop_cons_cons]
  simp [triggers, List.getElem?_eq_getElem hx, List.getElem?_eq_getElem hy]

/-- A run that reaches a second row without fault has found cell `n` in
the first two rows -/
theorem forLoop_cells (lower : String → String) (dir : Dir) (n i : Nat) (x y : Row)
    (rest : List Row) (h : forLoop lower dir n (x :: y :: rest) i ≠ .fault) :
    n < x.length ∧ n < y.length := by
  rw [forLoop_cons_cons] at h
  cases hx : x[n]? with
  | none => simp [hx] at h
  | some xc =>
    cases hy : y[n]? with
    | none => simp [hx, hy] at h
    | some yc =>
      exact ⟨(List.getElem?_eq_some_iff.mp hx).1, (List.getElem?_eq_some_iff.mp hy).1⟩

/-- A `break` at `i`: the pair at that index triggers the test, and moving
its second row up removes exactly one inversion -/
theorem forLoop_switchAt (lower : String → String) (dir : Dir) (n : Nat) :
    ∀ (l : List Row) (i0 i : Nat), forLoop lower dir n l i0 = .switchAt i →
      ∃ j, i = i0 + j ∧ j + 1 < l.length ∧
        inversions (triggers lower dir n) (insertBefore l j) + 1
          = inversions (triggers lower dir n) l ∧
        ¬ AdjacentOrdered lower dir n l
  | [], i0, i, h => by simp [forLoop] at h
  | [x], i0, i, h => by simp [forLoop] at h
  | x :: y :: rest, i0, i, h => by
    have hc := forLoop_cells lower dir n i0 x y rest (by rw [h]; simp)
    rw [forLoop_step lower dir n i0 x y rest hc.1 hc.2] at h
    by_cases ht : triggers lower dir n x y = true
    · simp only [ht, if_true, Scan.switchAt.injEq] at h
      refine ⟨0, by omega, by simp, ?_, ?_⟩
      · rw [insertBefore_zero]
        exact inversions_swap _ x y rest ht (triggers_asymm lower dir n x y ht)
      · intro hch
        have := (List.chain'_cons.mp hch).1
        simp [ht] at this
    · simp only [ht, Bool.false_eq_true, if_false] at h
      obtain ⟨j, hj, hlen, hinv, hna⟩ := forLoop_switchAt lower dir n (y :: rest) (i0 + 1) i h
      refine ⟨j + 1, by omega, by simpa using hlen, ?_, ?_⟩
      · rw [insertBefore_succ]
        exact inversions_cons_perm _ x _ _ (insertBefore_perm _ _) hinv
      · intro hch
        exact hna (List.chain'_cons.mp hch).2

/-- A run to the end: no adjacent pair triggers the test, and every row was
read when there are two or more -/
theorem forLoop_noSwitch (lower : String → String) (dir : Dir) (n : Nat) :
    ∀ (l : List Row) (i0 : Nat), forLoop lower dir n l i0 = .noSwitch →
      AdjacentOrdered lower dir n l ∧ (2 ≤ l.length → ∀ r ∈ l, n < r.length)
  | [], i0, _ => ⟨List.chain'_nil, by simp⟩
  | [x], i0, _ => ⟨List.chain'_singleton x, by simp⟩
  | x :: y :: rest, i0, h => by
    have hc := forLoop_cells lower dir n i0 x y rest (by rw [h]; simp)
    rw [forLoop_step lower dir n i0 x y rest hc.1 hc.2] at h
    by_cases ht : triggers lower dir n x y = true
    · simp [ht] at h
    · simp only [ht, Bool.false_eq_true, if_false] at h
      obtain ⟨hch, hall⟩ := forLoop_noSwitch lower dir n (y :: rest) (i0 + 1) h
      refine ⟨List.chain'_cons.mpr ⟨by simpa using ht, hch⟩, fun _ r hr => ?_⟩
      rcases List.mem_cons.mp hr with rfl | hr
      · exact hc.1
      · cases rest with
        | nil =>
          rcases List.mem_singleton.mp hr with rfl
          exact hc.2
        | cons z zs => exact hall (by simp) r hr

/-- A fault: some row has no cell `n` -/
theorem forLoop_fault (lower : String → String) (dir : Dir) (n : Nat) :
    ∀ (l : List Row) (i0 : Nat), forLoop lower dir n l i0 = .fault →
      ∃ r ∈ l, r.length ≤ n
  | [], i0, h => by simp [forLoop] at h
  | [x], i0, h => by simp [forLoop] at h
  | x :: y :: rest, i0, h => by
    by_cases hx : n < x.length
    · by_cases hy : n < y.length
      · rw [forLoop_step lower dir n i0 x y rest hx hy] at h
        by_cases ht : triggers lower dir n x y = true
        · simp [ht] at h
        · simp only [ht, Bool.false_eq_true, if_false] at h
          obtain ⟨r, hr, hlen⟩ := forLoop_fault lower dir n (y :: rest) (i0 + 1) h
          exact ⟨r, List.mem_cons_of_mem x hr, hlen⟩
      · exact ⟨y, by simp, by omega⟩
    · exact ⟨x, by simp, by omega⟩

/-- On rows that all have cell `n`, the loop runs to the end exactly when
no adjacent pair triggers the test -/
theorem forLoop_noSwitch_iff (lower : String → String) (dir : Dir) (n : Nat) (l : List Row)
    (i0 : Nat) (hv : ∀ r ∈ l, n < r.length) :
    forLoop lower dir n l i0 = .noSwitch ↔ AdjacentOrdered lower dir n l := by
  constructor
  · exact fun h => (forLoop_noSwitch lower dir n l i0 h).1
  · intro hch
    cases hres : forLoop lower dir n l i0 with
    | noSwitch => rfl
    | fault =>
      obtain ⟨r, hr, hlen⟩ := forLoop_fault lower dir n l i0 hres
      exact absurd (hv r hr) (by omega)
    | switchAt i =>
      obtain ⟨j, _, _, _, hna⟩ := forLoop_switchAt lower dir n l i0 i hres
      exact absurd hch hna

/-! ## The `while` loop -/

theorem afterSwaps_nil (s : State) : afterSwaps s [] = s := by
  simp [afterSwaps]

theorem afterSwaps_cons (s : State) (i : Nat) (idxs : List Nat) :
    afterSwaps s (i :: idxs) =
      afterSwaps
        { s with
          rows := insertBefore s.rows i
          switchcount := s.switchcount + 1
          trace := s.trace ++ [.swap s.dir i] } idxs := by
  simp [afterSwaps, Nat.add_assoc, Nat.add_comm 1]

/-- A `break` of the loop over the data rows happens at an index `i ≥ 1`
of the table and moves the data row at `i - 1` -/
theorem switchAt_data (lower : String → String) (dir : Dir) (n : Nat) (rows : Table) (i : Nat)
    (h : forLoop lower dir n (rows.drop 1) 1 = .switchAt i) :
    1 ≤ i ∧ i + 1 < rows.length ∧
      (insertBefore rows i).drop 1 = insertBefore (rows.drop 1) (i - 1) ∧
      (insertBefore rows i).head? = rows.head? ∧
      inversions (triggers lower dir n) ((insertBefore rows i).drop 1) + 1
        = inversions (triggers lower dir n) (rows.drop 1) := by
  obtain ⟨j, hj, hlen, hinv, _⟩ := forLoop_switchAt lower dir n _ 1 i h
  cases rows with
  | nil => simp at hlen
  | cons hd d =>
    have hi : i = j + 1 := by omega
    subst hi
    simp only [List.drop_succ_cons, List.drop_zero, List.length_cons] at hlen hinv ⊢
    rw [insertBefore_succ]
    simp only [List.drop_succ_cons, List.drop_zero, Nat.add_sub_cancel, List.head?_cons]
    exact ⟨by omega, by omega, trivial, trivial, hinv⟩

theorem whileLoop_fault (lower : String → String) (n fuel : Nat) (s : State)
    (h : forLoop lower s.dir n (s.rows.drop 1) 1 = .fault) :
    whileLoop lower n (fuel + 1) s = some (.fault s) := by
  rw [whileLoop]
  simp only [h]

theorem whileLoop_switchAt (lower : String → String) (n fuel : Nat) (s : State) (i : Nat)
    (h : forLoop lower s.dir n (s.rows.drop 1) 1 = .switchAt i) :
    whileLoop lower n (fuel + 1) s =
      whileLoop lower n fuel
        { s with
          rows := insertBefore s.rows i
          switchcount := s.switchcount + 1
          trace := s.trace ++ [.swap s.dir i] } := by
  rw [whileLoop]
  simp only [h]

theorem whileLoop_flip (lower : String → String) (n fuel : Nat) (s : State)
    (h : forLoop lower s.dir n (s.rows.drop 1) 1 = .noSwitch)
    (h0 : s.switchcount = 0) (hd : s.dir = .asc) :
    whileLoop lower n (fuel + 1) s = whileLoop lower n fuel (flipped s) := by
  rw [whileLoop]
  simp only [h]
  rw [if_pos ⟨h0, hd⟩]
  rfl

theorem whileLoop_done (lower : String → String) (n fuel : Nat) (s : State)
    (h : forLoop lower s.dir n (s.rows.drop 1) 1 = .noSwitch)
    (hs : s.dir = .desc ∨ 0 < s.switchcount) :
    whileLoop lower n (fuel + 1) s = some (.done s) := by
  have hno : ¬ (s.switchcount = 0 ∧ s.dir = .asc) := by
    rintro ⟨h0, hd⟩
    rcases hs with h | h
    · rw [hd] at h; cases h
    · omega
  rw [whileLoop]
  simp only [h, hno, if_false]

/-- Once the direction can no more change, the loop makes swaps in that
direction until a pass finds none or faults, and it does not run out of
fuel that exceeds the number of inversions -/
theorem whileLoop_settled (lower : String → String) (n : Nat) :
    ∀ (fuel : Nat) (s : State), (s.dir = .desc ∨ 0 < s.switchcount) →
      inversions (triggers lower s.dir n) (s.rows.drop 1) < fuel →
      ∃ idxs, SwapRun lower s.dir n s.rows idxs ∧
        ((forLoop lower s.dir n ((afterSwaps s idxs).rows.drop 1) 1 = .noSwitch ∧
            whileLoop lower n fuel s = some (.done (afterSwaps s idxs))) ∨
          (forLoop lower s.dir n ((afterSwaps s idxs).rows.drop 1) 1 = .fault ∧
            whileLoop lower n fuel s = some (.fault (afterSwaps s idxs)))) := by
  intro fuel
  induction fuel with
  | zero => intro s _ h; omega
  | succ f ih =>
    intro s hs hk
    cases hres : forLoop lower s.dir n (s.rows.drop 1) 1 with
    | fault =>
      refine ⟨[], trivial, Or.inr ?_⟩
      rw [afterSwaps_nil]
      exact ⟨hres, whileLoop_fault lower n f s hres⟩
    | noSwitch =>
      refine ⟨[], trivial, Or.inl ?_⟩
      rw [afterSwaps_nil]
      exact ⟨hres, whileLoop_done lower n f s hres hs⟩
    | switchAt i =>
      have hinv := (switchAt_data lower s.dir n s.rows i hres).2.2.2.2
      obtain ⟨idxs, hrun, hend⟩ := ih
        { s with
          rows := insertBefore s.rows i
          switchcount := s.switchcount + 1
          trace := s.trace ++ [.swap s.dir i] }
        (Or.inr (Nat.succ_pos _)) (by simp only; omega)
      refine ⟨i :: idxs, ⟨hres, hrun⟩, ?_⟩
      rw [afterSwaps_cons, whileLoop_switchAt lower n f s i hres]
      exact hend

/-- Swaps made by the loop keep the header in place and permute the data
rows, and each of them is at an index from 1 on -/
theorem SwapRun.frame (lower : String → String) (dir : Dir) (n : Nat) :
    ∀ (idxs : List Nat) (rows : Table), SwapRun lower dir n rows idxs →
      (idxs.foldl insertBefore rows).head? = rows.head? ∧
      ((idxs.foldl insertBefore rows).drop 1).Perm (rows.drop 1) ∧
      (idxs.foldl insertBefore rows).Perm rows ∧
      ∀ i ∈ idxs, 1 ≤ i ∧ i + 1 < rows.length
  | [], rows, _ => ⟨rfl, List.Perm.refl _, List.Perm.refl _, by simp⟩
  | i :: idxs, rows, h => by
    obtain ⟨hi, hlen, hdrop, hhead, _⟩ := switchAt_data lower dir n rows i h.1
    obtain ⟨h1, h2, h3, h4⟩ := SwapRun.frame lower dir n idxs (insertBefore rows i) h.2
    simp only [List.foldl_cons]
    refine ⟨h1.trans hhead, ?_, h3.trans (insertBefore_perm rows i), ?_⟩
    · rw [hdrop] at h2
      exact h2.trans (insertBefore_perm _ _)
    · intro j hj
      rcases List.mem_cons.mp hj with rfl | hj
      · exact ⟨hi, hlen⟩
      · have := h4 j hj
        rw [insertBefore_length] at this
        exact this

theorem enoughFuel_bound (gt : Row → Row → Bool) (table : Table) :
    inversions gt (table.drop 1) + 2 ≤ enoughFuel table := by
  have h1 := inversions_le gt (table.drop 1)
  have h2 : (table.drop 1).length ≤ table.length := by simp
  have h3 := Nat.mul_le_mul h2 h2
  unfold enoughFuel
  omega

/-- More fuel does not change an outcome -/
theorem whileLoop_mono (lower : String → String) (n : Nat) :
    ∀ (fuel : Nat) (s : State) (out : Outcome), whileLoop lower n fuel s = some out →
      ∀ fuel2, fuel ≤ fuel2 → whileLoop lower n fuel2 s = some out := by
  intro fuel
  induction fuel with
  | zero => intro s out h; simp [whileLoop] at h
  | succ f ih =>
    intro s out h fuel2 hf
    obtain ⟨g, rfl⟩ : ∃ g, fuel2 = g + 1 := ⟨fuel2 - 1, by omega⟩
    cases hres : forLoop lower s.dir n (s.rows.drop 1) 1 with
    | fault =>
      rw [whileLoop_fault lower n f s hres] at h
      rw [whileLoop_fault lower n g s hres, h]
    | switchAt i =>
      rw [whileLoop_switchAt lower n f s i hres] at h
      rw [whileLoop_switchAt lower n g s i hres]
      exact ih _ out h g (by omega)
    | noSwitch =>
      by_cases hc : s.switchcount = 0 ∧ s.dir = .asc
      · rw [whileLoop_flip lower n f s hres hc.1 hc.2] at h
        rw [whileLoop_flip lower n g s hres hc.1 hc.2]
        exact ih _ out h g (by omega)
      · have hs : s.dir = .desc ∨ 0 < s.switchcount := by
          by_cases h0 : s.switchcount = 0
          · left
            cases hd : s.dir with
            | asc => exact absurd ⟨h0, hd⟩ hc
            | desc => rfl
          · right; omega
        rw [whileLoop_done lower n f s hres hs] at h
        rw [whileLoop_done lower n g s hres hs, h]

/-- Every invocation has a run specification -/
theorem runSpec_exists (lower : String → String) (n : Nat) (table : Table) :
    ∃ out dir idxs, RunSpec lower n table out dir idxs := by
  cases hres : forLoop lower .asc n (table.drop 1) 1 with
  | fault =>
    refine ⟨.fault (initial table), .asc, [], ?_, ?_, trivial, ?_, ?_⟩
    · intro fuel hf
      obtain ⟨f, rfl⟩ : ∃ f, fuel = f + 1 := ⟨fuel - 1, by unfold enoughFuel at hf; omega⟩
      exact whileLoop_fault lower n f (initial table) hres
    · constructor
      · intro h; cases h
      · intro h; rw [hres] at h; cases h
    · simp [afterSwaps_nil, Outcome.state]
    · exact hres
  | noSwitch =>
    have hb := enoughFuel_bound (triggers lower .desc n) table
    obtain ⟨f, hf⟩ : ∃ f, enoughFuel table = f + 1 := ⟨enoughFuel table - 1, by omega⟩
    obtain ⟨idxs, hrun, hend⟩ := whileLoop_settled lower n f
      (flipped (initial table)) (Or.inl rfl) (by simp only [flipped, initial]; omega)
    have hstep : whileLoop lower n (f + 1) (initial table)
        = whileLoop lower n f (flipped (initial table)) :=
      whileLoop_flip lower n f (initial table) hres rfl rfl
    have hiff : Dir.desc = Dir.desc ↔ forLoop lower .asc n (table.drop 1) 1 = .noSwitch :=
      ⟨fun _ => hres, fun _ => rfl⟩
    rcases hend with ⟨hlast, hout⟩ | ⟨hlast, hout⟩
    · refine ⟨.done (afterSwaps (flipped (initial table)) idxs), .desc, idxs, ?_, hiff, hrun,
        by simp [Outcome.state], hlast⟩
      intro fuel hfuel
      exact whileLoop_mono lower n (f + 1) _ _ (hstep.trans hout) fuel (by omega)
    · refine ⟨.fault (afterSwaps (flipped (initial table)) idxs), .desc, idxs, ?_, hiff, hrun,
        by simp [Outcome.state], hlast⟩
      intro fuel hfuel
      exact whileLoop_mono lower n (f + 1) _ _ (hstep.trans hout) fuel (by omega)
  | switchAt i =>
    have hb := enoughFuel_bound (triggers lower .asc n) table
    obtain ⟨f, hf⟩ : ∃ f, enoughFuel table = f + 1 := ⟨enoughFuel table - 1, by omega⟩
    have hinv := (switchAt_data lower .asc n table i hres).2.2.2.2
    obtain ⟨idxs, hrun, hend⟩ := whileLoop_settled lower n f
      { initial table with
        rows := insertBefore table i
        switchcount := 1
        trace := [.swap .asc i] }
      (Or.inr (by simp)) (by simp only [initial]; omega)
    have hstep : whileLoop lower n (f + 1) (initial table)
        = whileLoop lower n f
            { initial table with
              rows := insertBefore table i
              switchcount := 1
              trace := [.swap .asc i] } :=
      whileLoop_switchAt lower n f (initial table) i hres
    have hiff : Dir.asc = Dir.desc ↔ forLoop lower .asc n (table.drop 1) 1 = .noSwitch := by
      constructor
      · intro h; cases h
      · intro h; rw [hres] at h; cases h
    have hst : afterSwaps (initial table) (i :: idxs)
        = afterSwaps
            { initial table with
              rows := insertBefore table i
              switchcount := 1
              trace := [.swap .asc i] } idxs := by
      rw [afterSwaps_cons]; rfl
    rcases hend with ⟨hlast, hout⟩ | ⟨hlast, hout⟩
    · refine ⟨.done (afterSwaps (initial table) (i :: idxs)), .asc, i :: idxs, ?_, hiff,
        ⟨hres, hrun⟩, by simp [Outcome.state], ?_⟩
      · intro fuel hfuel
        rw [hst]
        exact whileLoop_mono lower n (f + 1) _ _ (hstep.trans hout) fuel (by omega)
      · simp only [Outcome.state]
        rw [hst]
        exact hlast
    · refine ⟨.fault (afterSwaps (initial table) (i :: idxs)), .asc, i :: idxs, ?_, hiff,
        ⟨hres, hrun⟩, by simp [Outcome.state], ?_⟩
      · intro fuel hfuel
        rw [hst]
        exact whileLoop_mono lower n (f + 1) _ _ (hstep.trans hout) fuel (by omega)
      · simp only [Outcome.state]
        rw [hst]
        exact hlast

/-! ## Consequences of the run specification -/

theorem RunSpec.sortTable_eq {lower : String → String} {n : Nat} {table : Table}
    {out : Outcome} {dir : Dir} {idxs : List Nat} (h : RunSpec lower n table out dir idxs) :
    sortTable lower n table = some out :=
  h.total _ (Nat.le_refl _)

theorem RunSpec.rows_eq {lower : String → String} {n : Nat} {table : Table}
    {out : Outcome} {dir : Dir} {idxs : List Nat} (h : RunSpec lower n table out dir idxs) :
    out.state.rows = idxs.foldl insertBefore table := by
  rw [h.state]
  split <;> rfl

theorem RunSpec.dir_eq {lower : String → String} {n : Nat} {table : Table}
    {out : Outcome} {dir : Dir} {idxs : List Nat} (h : RunSpec lower n table out dir idxs) :
    out.state.dir = dir := by
  rw [h.state]
  cases dir <;> rfl

theorem RunSpec.switchcount_eq {lower : String → String} {n : Nat} {table : Table}
    {out : Outcome} {dir : Dir} {idxs : List Nat} (h : RunSpec lower n table out dir idxs) :
    out.state.switchcount = idxs.length := by
  rw [h.state]
  split <;> simp [afterSwaps, flipped, initial]

theorem RunSpec.trace_eq {lower : String → String} {n : Nat} {table : Table}
    {out : Outcome} {dir : Dir} {idxs : List Nat} (h : RunSpec lower n table out dir idxs) :
    out.state.trace = (if dir = .desc then [Event.flip] else []) ++ idxs.map (Event.swap dir) := by
  rw [h.state]
  cases dir <;> simp [afterSwaps, flipped, initial]

theorem RunSpec.perm_data {lower : String → String} {n : Nat} {table : Table}
    {out : Outcome} {dir : Dir} {idxs : List Nat} (h : RunSpec lower n table out dir idxs) :
    (out.state.rows.drop 1).Perm (table.drop 1) := by
  rw [h.rows_eq]
  exact (SwapRun.frame lower dir n idxs table h.swaps).2.1

theorem RunSpec.valid {lower : String → String} {n : Nat} {table : Table}
    {out : Outcome} {dir : Dir} {idxs : List Nat} (h : RunSpec lower n table out dir idxs)
    (hv : ValidColumn n table) : ValidColumn n out.state.rows :=
  fun r hr => hv r (h.perm_data.mem_iff.mp hr)

/-- With cell `n` in every data row the invocation completes -/
theorem RunSpec.done_of_valid {lower : String → String} {n : Nat} {table : Table}
    {out : Outcome} {dir : Dir} {idxs : List Nat} (h : RunSpec lower n table out dir idxs)
    (hv : ValidColumn n table) : out = .done out.state := by
  cases out with
  | done s => rfl
  | fault s =>
    have hl := h.last
    simp only at hl
    obtain ⟨r, hr, hlen⟩ := forLoop_fault lower dir n _ 1 hl
    exact absurd (h.valid hv r hr) (by omega)

/-- A completed invocation leaves no adjacent pair that triggers the test of
its final direction -/
theorem RunSpec.ordered {lower : String → String} {n : Nat} {table : Table}
    {s : State} {dir : Dir} {idxs : List Nat} (h : RunSpec lower n table (.done s) dir idxs) :
    AdjacentOrdered lower dir n (s.rows.drop 1) :=
  (forLoop_noSwitch lower dir n _ 1 h.last).1

/-- The run specification of an invocation on a table with cell `n` in
every data row -/
theorem runSpec_valid (lower : String → String) (n : Nat) (table : Table)
    (hv : ValidColumn n table) :
    ∃ s dir idxs, RunSpec lower n table (.done s) dir idxs := by
  obtain ⟨out, dir, idxs, h⟩ := runSpec_exists lower n table
  have hd := h.done_of_valid hv
  exact ⟨out.state, dir, idxs, hd ▸ h⟩

/-! ## The claims -/

/-- C1: for every table and every column index `n` that every data row has,
one invocation of `sortTable(n)` completes and leaves no adjacent pair of
data rows that triggers the swap test of the direction in force at the end;
so either no adjacent pair triggers the ascending test or none triggers the
descending test. -/
theorem sortTable_adjacent_ordered (lower : String → String) (n : Nat) (table : Table)
    (hv : ValidColumn n table) :
    ∃ s, sortTable lower n table = some (.done s) ∧
      ValidColumn n s.rows ∧
      AdjacentOrdered lower s.dir n (s.rows.drop 1) ∧
      (AdjacentOrdered lower .asc n (s.rows.drop 1) ∨
        AdjacentOrdered lower .desc n (s.rows.drop 1)) := by
  obtain ⟨s, dir, idxs, h⟩ := runSpec_valid lower n table hv
  have hd : s.dir = dir := h.dir_eq
  have ho := h.ordered
  refine ⟨s, h.sortTable_eq, h.valid hv, hd ▸ ho, ?_⟩
  cases dir with
  | asc => exact Or.inl ho
  | desc => exact Or.inr ho

theorem sortTable_adjacent_ordered_witness :
    ValidColumn 0 percentTable ∧
      ∃ s, sortTable asciiLower 0 percentTable = some (.done s) ∧
        ValidColumn 0 s.rows ∧
        AdjacentOrdered asciiLower s.dir 0 (s.rows.drop 1) ∧
        (AdjacentOrdered asciiLower .asc 0 (s.rows.drop 1) ∨
          AdjacentOrdered asciiLower .desc 0 (s.rows.drop 1)) :=
  ⟨by decide, sortTable_adjacent_ordered asciiLower 0 percentTable (by decide)⟩

/-- C2: for every table and valid column index `n`, the rows after
`sortTable(n)` are a permutation of the rows before it: none is added,
removed, duplicated or changed; only positions change. -/
theorem sortTable_perm (lower : String → String) (n : Nat) (table : Table)
    (hv : ValidColumn n table) :
    ∃ s, sortTable lower n table = some (.done s) ∧ s.rows.Perm table := by
  obtain ⟨s, dir, idxs, h⟩ := runSpec_valid lower n table hv
  refine ⟨s, h.sortTable_eq, ?_⟩
  have := h.rows_eq
  simp only [Outcome.state] at this
  rw [this]
  exact (SwapRun.frame lower dir n idxs table h.swaps).2.2.1

theorem sortTable_perm_witness :
    ValidColumn 1 twoColumnTable ∧
      ∃ s, sortTable asciiLower 1 twoColumnTable = some (.done s) ∧
        s.rows.Perm twoColumnTable :=
  ⟨by decide, sortTable_perm asciiLower 1 twoColumnTable (by decide)⟩

/-- The header row takes no part in the loop: with another header the
run is the same, header apart -/
theorem whileLoop_header (lower : String → String) (n : Nat) (hd : Row) :
    ∀ (fuel : Nat) (s : State), s.rows ≠ [] →
      whileLoop lower n fuel (withHeader hd s)
        = (whileLoop lower n fuel s).map (Outcome.withHeader hd) := by
  intro fuel
  induction fuel with
  | zero => intro s _; rfl
  | succ f ih =>
    intro s hne
    cases hres : forLoop lower s.dir n (s.rows.drop 1) 1 with
    | fault =>
      rw [whileLoop_fault lower n f s hres, whileLoop_fault lower n f (withHeader hd s) hres]
      rfl
    | switchAt i =>
      rw [whileLoop_switchAt lower n f s i hres,
        whileLoop_switchAt lower n f (withHeader hd s) i hres]
      obtain ⟨hi, hlen, hdrop, _, _⟩ := switchAt_data lower s.dir n s.rows i hres
      rw [← ih _ (by
        intro h0
        have := congrArg List.length h0
        simp only [insertBefore_length, List.length_nil] at this
        omega)]
      congr 1
      obtain ⟨j, rfl⟩ : ∃ j, i = j + 1 := ⟨i - 1, by omega⟩
      simp only [withHeader, insertBefore_succ, hdrop, Nat.add_sub_cancel]
    | noSwitch =>
      by_cases hc : s.switchcount = 0 ∧ s.dir = .asc
      · rw [whileLoop_flip lower n f s hres hc.1 hc.2,
          whileLoop_flip lower n f (withHeader hd s) hres hc.1 hc.2]
        exact ih (flipped s) hne
      · have hs : s.dir = .desc ∨ 0 < s.switchcount := by
          by_cases h0 : s.switchcount = 0
          · left
            cases hd : s.dir with
            | asc => exact absurd ⟨h0, hd⟩ hc
            | desc => rfl
          · right; omega
        rw [whileLoop_done lower n f s hres hs,
          whileLoop_done lower n f (withHeader hd s) hres hs]
        rfl

/-- C3: for every non-empty table and valid column index `n`, the header
row is at index 0 before and after `sortTable(n)`, every swap exchanges the
rows at `i` and `i + 1` with `i ≥ 1`, and no comparison reads the header:
with any other header row the invocation does the same, header apart. -/
theorem sortTable_header (lower : String → String) (n : Nat) (header : Row) (data : List Row)
    (hv : ValidColumn n (header :: data)) :
    ∃ s, sortTable lower n (header :: data) = some (.done s) ∧
      s.rows.head? = some header ∧
      (∀ dir i, Event.swap dir i ∈ s.trace → 1 ≤ i ∧ i + 1 < (header :: data).length) ∧
      ∀ other, sortTable lower n (other :: data) = some (.done (withHeader other s)) := by
  obtain ⟨s, dir, idxs, h⟩ := runSpec_valid lower n (header :: data) hv
  obtain ⟨hhead, _, _, hidx⟩ := SwapRun.frame lower dir n idxs (header :: data) h.swaps
  have hrows : s.rows = idxs.foldl insertBefore (header :: data) := h.rows_eq
  have htrace : s.trace = (if dir = .desc then [Event.flip] else []) ++ idxs.map (Event.swap dir) :=
    h.trace_eq
  refine ⟨s, h.sortTable_eq, ?_, ?_, ?_⟩
  · rw [hrows, hhead]; rfl
  · intro d i hmem
    rw [htrace] at hmem
    rcases List.mem_append.mp hmem with hm | hm
    · split at hm
      · rcases List.mem_singleton.mp hm with h0
        cases h0
      · cases hm
    · obtain ⟨j, hj, hje⟩ := List.mem_map.mp hm
      cases hje
      exact hidx i hj
  · intro other
    have := whileLoop_header lower n other (enoughFuel (header :: data))
      (initial (header :: data)) (by simp [initial])
    have hs := h.sortTable_eq
    unfold sortTable at hs ⊢
    rw [hs] at this
    exact this

theorem sortTable_header_witness :
    ValidColumn 0 (["load"] :: percentData) ∧
      ∃ s, sortTable asciiLower 0 (["load"] :: percentData) = some (.done s) ∧
      s.rows.head? = some ["load"] ∧
      (∀ dir i, Event.swap dir i ∈ s.trace →
        1 ≤ i ∧ i + 1 < (["load"] :: percentData).length) ∧
      ∀ other, sortTable asciiLower 0 (other :: percentData)
        = some (.done (withHeader other s)) :=
  ⟨by decide, sortTable_header asciiLower 0 ["load"] percentData (by decide)⟩

/-- C4: for every table whose data rows are already ascending-sorted on
column `n` (no adjacent pair triggers the ascending test), `sortTable(n)`
makes no ascending swap, flips to descending, makes its swaps in that
direction and ends with no adjacent pair triggering the descending test. -/
theorem sortTable_sorted_input (lower : String → String) (n : Nat) (table : Table)
    (hv : ValidColumn n table) (hasc : AdjacentOrdered lower .asc n (table.drop 1)) :
    ∃ s, sortTable lower n table = some (.done s) ∧
      s.dir = .desc ∧
      (∃ idxs : List Nat, s.trace = Event.flip :: idxs.map (Event.swap .desc)) ∧
      (∀ i, Event.swap .asc i ∉ s.trace) ∧
      AdjacentOrdered lower .desc n (s.rows.drop 1) := by
  obtain ⟨s, dir, idxs, h⟩ := runSpec_valid lower n table hv
  have hdesc : dir = .desc := h.flip_iff.mpr ((forLoop_noSwitch_iff lower .asc n _ 1 hv).mpr hasc)
  subst hdesc
  have htrace : s.trace = Event.flip :: idxs.map (Event.swap .desc) := by
    have := h.trace_eq
    simpa [Outcome.state] using this
  refine ⟨s, h.sortTable_eq, h.dir_eq, ⟨idxs, htrace⟩, ?_, h.ordered⟩
  intro i hmem
  rw [htrace] at hmem
  simp at hmem

theorem sortTable_sorted_input_witness :
    ValidColumn 0 ascendingTable ∧ AdjacentOrdered asciiLower .asc 0 (ascendingTable.drop 1) ∧
      ∃ s, sortTable asciiLower 0 ascendingTable = some (.done s) ∧
        s.dir = .desc ∧
        (∃ idxs : List Nat, s.trace = Event.flip :: idxs.map (Event.swap .desc)) ∧
        (∀ i, Event.swap .asc i ∉ s.trace) ∧
        AdjacentOrdered asciiLower .desc 0 (s.rows.drop 1) :=
  ⟨by decide, by decide,
    sortTable_sorted_input asciiLower 0 ascendingTable (by decide) (by decide)⟩

/-- C5: in every invocation the direction starts ascending and changes at
most once, to descending, and it changes exactly when the input has no
adjacent pair of data rows that triggers the ascending test; so all swaps
of an invocation are made in one direction, the final one, and if an
ascending swap is made the direction never flips and the result is
ascending-sorted. -/
theorem sortTable_direction (lower : String → String) (n : Nat) (table : Table)
    (hv : ValidColumn n table) :
    ∃ s, sortTable lower n table = some (.done s) ∧
      (initial table).dir = .asc ∧
      s.trace.count Event.flip ≤ 1 ∧
      (Event.flip ∈ s.trace ↔ AdjacentOrdered lower .asc n (table.drop 1)) ∧
      (s.dir = .desc ↔ Event.flip ∈ s.trace) ∧
      (∀ dir i, Event.swap dir i ∈ s.trace → dir = s.dir) ∧
      ((∃ i, Event.swap .asc i ∈ s.trace) →
        Event.flip ∉ s.trace ∧ AdjacentOrdered lower .asc n (s.rows.drop 1)) := by
  obtain ⟨s, dir, idxs, h⟩ := runSpec_valid lower n table hv
  have hd : s.dir = dir := h.dir_eq
  have htrace : s.trace = (if dir = .desc then [Event.flip] else []) ++ idxs.map (Event.swap dir) :=
    h.trace_eq
  have hflip : Event.flip ∈ s.trace ↔ dir = .desc := by
    rw [htrace]
    cases dir <;> simp
  have hswap : ∀ d i, Event.swap d i ∈ s.trace → d = dir := by
    intro d i hmem
    rw [htrace] at hmem
    cases dir <;> simp at hmem <;> exact hmem.2.symm
  refine ⟨s, h.sortTable_eq, rfl, ?_, ?_, ?_, ?_, ?_⟩
  · have hno : List.count Event.flip (idxs.map (Event.swap dir)) = 0 :=
      List.count_eq_zero.mpr (by simp)
    rw [htrace, List.count_append, hno]
    cases dir <;> simp
  · rw [hflip, h.flip_iff]
    exact forLoop_noSwitch_iff lower .asc n _ 1 hv
  · rw [hflip, hd]
  · intro d i hmem
    rw [hd]
    exact hswap d i hmem
  · rintro ⟨i, hmem⟩
    have hdir := hswap _ _ hmem
    refine ⟨fun hf => ?_, ?_⟩
    · rw [hflip.mp hf] at hdir
      cases hdir
    · have ho := h.ordered
      rw [← hdir] at ho
      exact ho

theorem sortTable_direction_witness :
    ValidColumn 0 percentTable ∧
      ∃ s, sortTable asciiLower 0 percentTable = some (.done s) ∧
        (initial percentTable).dir = .asc ∧
        s.trace.count Event.flip ≤ 1 ∧
        (Event.flip ∈ s.trace ↔ AdjacentOrdered asciiLower .asc 0 (percentTable.drop 1)) ∧
        (s.dir = .desc ↔ Event.flip ∈ s.trace) ∧
        (∀ dir i, Event.swap dir i ∈ s.trace → dir = s.dir) ∧
        ((∃ i, Event.swap .asc i ∈ s.trace) →
          Event.flip ∉ s.trace ∧ AdjacentOrdered asciiLower .asc 0 (s.rows.drop 1)) :=
  ⟨by decide, sortTable_direction asciiLower 0 percentTable (by decide)⟩

/-! ## Homogeneous columns -/

theorem pairwise_of_adjacent {R S : Row → Row → Prop} (hS : ∀ x y z, S x y → S y z → S x z)
    (l : List Row) (hch : List.Chain' R l) (himp : ∀ x ∈ l, ∀ y ∈ l, R x y → S x y) :
    List.Pairwise S l := by
  haveI : IsTrans Row S := ⟨hS⟩
  exact List.chain'_iff_pairwise.mp
    ((List.Chain'.iff_mem.mp hch).imp fun x y h => himp x h.1 y h.2.1 h.2.2)

theorem adjacent_of_infix {R : Row → Row → Prop} {l : List Row} {x y : Row}
    (hch : List.Chain' R l) (hin : [x, y] <:+: l) : R x y := by
  obtain ⟨front, back, rfl⟩ := hin
  exact List.chain'_pair.mp hch.left_of_append.right_of_append

theorem numberLe_trans (lower : String → String) (n : Nat) (x y z : Row)
    (h1 : NumberLe lower n x y) (h2 : NumberLe lower n y z) : NumberLe lower n x z := by
  obtain ⟨a, b, ha, hb, hab⟩ := h1
  obtain ⟨b2, c, hb2, hc, hbc⟩ := h2
  rw [hb] at hb2
  cases hb2
  exact ⟨a, c, ha, hc, by omega⟩

theorem textLe_trans (lower : String → String) (n : Nat) (x y z : Row)
    (h1 : TextLe lower n x y) (h2 : TextLe lower n y z) : TextLe lower n x z := by
  obtain ⟨a, b, ha, hb, hab⟩ := h1
  obtain ⟨b2, c, hb2, hc, hbc⟩ := h2
  rw [hb] at hb2
  cases hb2
  exact ⟨a, c, ha, hc, ltUnits_not_trans (codeUnits a) (codeUnits b) (codeUnits c) hab hbc⟩

/-- On two rows whose cells both parse, the ascending test is `xNum > yNum` -/
theorem triggers_asc_number (lower : String → String) (n : Nat) (x y : Row) (a b : Int)
    (hx : rowNumber lower n x = some a) (hy : rowNumber lower n y = some b) :
    triggers lower .asc n x y = decide (a > b) := by
  unfold rowNumber at hx hy
  cases hxc : x[n]? with
  | none => simp [hxc] at hx
  | some cx =>
    cases hyc : y[n]? with
    | none => simp [hyc] at hy
    | some cy =>
      simp only [hxc, hyc, Option.some_bind, cellNumber] at hx hy
      simp only [triggers, hxc, hyc, shouldSwitch, hx, hy]

/-- On two rows of which the first has a cell that does not parse, the
ascending test is `xVal > yVal` -/
theorem triggers_asc_text (lower : String → String) (n : Nat) (x y : Row) (cx cy : String)
    (hx : x[n]? = some cx) (hy : y[n]? = some cy) (hnum : cellNumber lower cx = none) :
    triggers lower .asc n x y = strGt (lower cx) (lower cy) := by
  unfold cellNumber at hnum
  simp only [triggers, hx, hy, shouldSwitch, hnum]

/-- C6: for every table in which the cell in column `n` of every data row
parses as a number, and in which some adjacent pair of data rows is out of
ascending numeric order, `sortTable(n)` completes in the ascending
direction and leaves the data rows in non-decreasing numeric order of that
cell: of any two data rows the earlier one has the smaller or equal
number. -/
theorem sortTable_numeric (lower : String → String) (n : Nat) (table : Table)
    (hnum : ∀ r ∈ table.drop 1, (rowNumber lower n r).isSome)
    (hout : ∃ x y a b, [x, y] <:+: table.drop 1 ∧
      rowNumber lower n x = some a ∧ rowNumber lower n y = some b ∧ b < a) :
    ∃ s, sortTable lower n table = some (.done s) ∧
      s.dir = .asc ∧
      s.rows.Perm table ∧
      List.Pairwise (NumberLe lower n) (s.rows.drop 1) := by
  have hv : ValidColumn n table := by
    intro r hr
    have := hnum r hr
    unfold rowNumber at this
    cases hc : r[n]? with
    | none => simp [hc] at this
    | some c => exact (List.getElem?_eq_some_iff.mp hc).1
  obtain ⟨s, dir, idxs, h⟩ := runSpec_valid lower n table hv
  have hasc : dir = .asc := by
    cases dir with
    | asc => rfl
    | desc =>
      exfalso
      have hch := (forLoop_noSwitch lower .asc n _ 1 (h.flip_iff.mp rfl)).1
      obtain ⟨x, y, a, b, hin, hx, hy, hlt⟩ := hout
      have hxy := adjacent_of_infix hch hin
      rw [triggers_asc_number lower n x y a b hx hy] at hxy
      simp at hxy
      omega
  subst hasc
  have hperm : (s.rows.drop 1).Perm (table.drop 1) := h.perm_data
  have hrows : s.rows.Perm table := by
    have := h.rows_eq
    simp only [Outcome.state] at this
    rw [this]
    exact (SwapRun.frame lower .asc n idxs table h.swaps).2.2.1
  refine ⟨s, h.sortTable_eq, h.dir_eq, hrows, ?_⟩
  refine pairwise_of_adjacent (numberLe_trans lower n) _ h.ordered ?_
  intro x hx y hy hxy
  obtain ⟨a, ha⟩ := Option.isSome_iff_exists.mp (hnum x (hperm.mem_iff.mp hx))
  obtain ⟨b, hb⟩ := Option.isSome_iff_exists.mp (hnum y (hperm.mem_iff.mp hy))
  rw [triggers_asc_number lower n x y a b ha hb] at hxy
  exact ⟨a, b, ha, hb, by simpa using hxy⟩

/-- The example of C6: the column 30%, 5%, 100% strips to 30, 5, 100 and
ends as 5%, 30%, 100% -/
theorem sortTable_numeric_witness :
    (∀ r ∈ percentTable.drop 1, (rowNumber asciiLower 0 r).isSome) ∧
    percentData.map (fun r => r[0]?.map (fun c => stripNonNumeric (asciiLower c)))
      = [some ['3', '0'], some ['5'], some ['1', '0', '0']] ∧
    percentData.map (rowNumber asciiLower 0)
      = [some ((30 <<< 1074 : Nat) : Int), some ((5 <<< 1074 : Nat) : Int),
          some ((100 <<< 1074 : Nat) : Int)] ∧
    sortTable asciiLower 0 percentTable
      = some (.done
          { rows := [["load"], ["5%"], ["30%"], ["100%"]]
            dir := .asc
            switchcount := 1
            trace := [.swap .asc 1] }) ∧
    ∃ s, sortTable asciiLower 0 percentTable = some (.done s) ∧
      s.dir = .asc ∧
      s.rows.Perm percentTable ∧
      List.Pairwise (NumberLe asciiLower 0) (s.rows.drop 1) :=
  ⟨by decide, by decide, by decide, by decide,
    sortTable_numeric asciiLower 0 percentTable (by decide)
      ⟨["30%"], ["5%"], ((30 <<< 1074 : Nat) : Int), ((5 <<< 1074 : Nat) : Int),
        ⟨[], [["100%"]], rfl⟩,
        by decide, by decide, by decide⟩⟩

/-- C7: for every table in which the cell in column `n` of no data row
parses as a number, and in which some adjacent pair of data rows is out of
ascending order, `sortTable(n)` completes in the ascending direction and
leaves the data rows in non-decreasing lexicographic order of the
lowercased cell text; the rows, and so the case of their cells, are the
ones of the input. -/
theorem sortTable_text (lower : String → String) (n : Nat) (table : Table)
    (htext : ∀ r ∈ table.drop 1, ∃ c, r[n]? = some c ∧ cellNumber lower c = none)
    (hout : ∃ x y a b, [x, y] <:+: table.drop 1 ∧
      rowText lower n x = some a ∧ rowText lower n y = some b ∧ strGt a b = true) :
    ∃ s, sortTable lower n table = some (.done s) ∧
      s.dir = .asc ∧
      s.rows.Perm table ∧
      List.Pairwise (TextLe lower n) (s.rows.drop 1) := by
  have hv : ValidColumn n table := by
    intro r hr
    obtain ⟨c, hc, _⟩ := htext r hr
    exact (List.getElem?_eq_some_iff.mp hc).1
  have key : ∀ x ∈ table.drop 1, ∀ y ∈ table.drop 1, ∃ a b,
      rowText lower n x = some a ∧ rowText lower n y = some b ∧
        triggers lower .asc n x y = strGt a b := by
    intro x hx y hy
    obtain ⟨cx, hcx, hnx⟩ := htext x hx
    obtain ⟨cy, hcy, _⟩ := htext y hy
    exact ⟨lower cx, lower cy, by simp [rowText, hcx], by simp [rowText, hcy],
      triggers_asc_text lower n x y cx cy hcx hcy hnx⟩
  obtain ⟨s, dir, idxs, h⟩ := runSpec_valid lower n table hv
  have hasc : dir = .asc := by
    cases dir with
    | asc => rfl
    | desc =>
      exfalso
      have hch := (forLoop_noSwitch lower .asc n _ 1 (h.flip_iff.mp rfl)).1
      obtain ⟨x, y, a, b, hin, hx, hy, hgt⟩ := hout
      have hxy := adjacent_of_infix hch hin
      have hmem : ∀ r ∈ [x, y], r ∈ table.drop 1 := fun r hr => hin.subset hr
      obtain ⟨a2, b2, ha2, hb2, htr⟩ := key x (hmem x (by simp)) y (hmem y (by simp))
      rw [hx] at ha2
      rw [hy] at hb2
      cases ha2
      cases hb2
      rw [htr, hgt] at hxy
      cases hxy
  subst hasc
  have hperm : (s.rows.drop 1).Perm (table.drop 1) := h.perm_data
  have hrows : s.rows.Perm table := by
    have := h.rows_eq
    simp only [Outcome.state] at this
    rw [this]
    exact (SwapRun.frame lower .asc n idxs table h.swaps).2.2.1
  refine ⟨s, h.sortTable_eq, h.dir_eq, hrows, ?_⟩
  refine pairwise_of_adjacent (textLe_trans lower n) _ h.ordered ?_
  intro x hx y hy hxy
  obtain ⟨a, b, ha, hb, htr⟩ := key x (hperm.mem_iff.mp hx) y (hperm.mem_iff.mp hy)
  exact ⟨a, b, ha, hb, htr ▸ hxy⟩

/-- The example of C7: the column banana, Apple, cherry ends as Apple,
banana, cherry -/
theorem sortTable_text_witness :
    (∀ r ∈ fruitTable.drop 1, ∃ c, r[0]? = some c ∧ cellNumber asciiLower c = none) ∧
    sortTable asciiLower 0 fruitTable
      = some (.done
          { rows := [["fruit"], ["Apple"], ["banana"], ["cherry"]]
            dir := .asc
            switchcount := 1
            trace := [.swap .asc 1] }) ∧
    ∃ s, sortTable asciiLower 0 fruitTable = some (.done s) ∧
      s.dir = .asc ∧
      s.rows.Perm fruitTable ∧
      List.Pairwise (TextLe asciiLower 0) (s.rows.drop 1) :=
  have htext : ∀ r ∈ fruitTable.drop 1, ∃ c, r[0]? = some c ∧ cellNumber asciiLower c = none := by
    intro r hr
    simp only [fruitTable, fruitData, List.drop_succ_cons, List.drop_zero, List.mem_cons,
      List.mem_singleton, List.not_mem_nil, or_false] at hr
    rcases hr with rfl | rfl | rfl
    · exact ⟨"banana", rfl, by decide⟩
    · exact ⟨"Apple", rfl, by decide⟩
    · exact ⟨"cherry", rfl, by decide⟩
  ⟨htext, by decide,
    sortTable_text asciiLower 0 fruitTable htext
      ⟨["banana"], ["Apple"], "banana", "apple", ⟨[], [["cherry"]], rfl⟩,
        by decide, by decide, by decide⟩⟩

/-- C8 as stated fails: on the column 10, abc, 2 the invocation does not
end with the numeric rows out of ascending numeric order. -/
theorem mixedTable_not_unsorted :
    ¬ ∃ s, sortTable asciiLower 0 mixedTable = some (.done s) ∧
      ¬ NumericRowsAscending asciiLower 0 (s.rows.drop 1) := by
  rintro ⟨s, hs, hn⟩
  have hrun : sortTable asciiLower 0 mixedTable
      = some (.done
          { rows := [["value"], ["2"], ["10"], ["abc"]]
            dir := .asc
            switchcount := 2
            trace := [.swap .asc 2, .swap .asc 1] }) := by decide
  rw [hrun] at hs
  cases hs
  apply hn
  have hnums : List.filterMap (rowNumber asciiLower 0) [["2"], ["10"], ["abc"]]
      = [((2 <<< 1074 : Nat) : Int), ((10 <<< 1074 : Nat) : Int)] := by decide
  simp only [NumericRowsAscending, List.drop_succ_cons, List.drop_zero, hnums]
  refine List.pairwise_pair.mpr ?_
  decide

/-- C8, amended: on the column 10, abc, 2 one invocation swaps at index 2
and then at index 1, both ascending, and ends with the column 2, 10, abc:
the rows whose cell parses as a number are in ascending numeric order
relative to each other, and no adjacent pair triggers the ascending test. -/
theorem mixedTable_result :
    sortTable asciiLower 0 mixedTable
      = some (.done
          { rows := [["value"], ["2"], ["10"], ["abc"]]
            dir := .asc
            switchcount := 2
            trace := [.swap .asc 2, .swap .asc 1] }) ∧
    List.filterMap (rowNumber asciiLower 0) [["2"], ["10"], ["abc"]]
      = [((2 <<< 1074 : Nat) : Int), ((10 <<< 1074 : Nat) : Int)] ∧
    NumericRowsAscending asciiLower 0 [["2"], ["10"], ["abc"]] ∧
    AdjacentOrdered asciiLower .asc 0 [["2"], ["10"], ["abc"]] := by
  have hnums : List.filterMap (rowNumber asciiLower 0) [["2"], ["10"], ["abc"]]
      = [((2 <<< 1074 : Nat) : Int), ((10 <<< 1074 : Nat) : Int)] := by decide
  refine ⟨by decide, hnums, ?_, by decide⟩
  simp only [NumericRowsAscending, hnums]
  refine List.pairwise_pair.mpr ?_
  decide

/-- C9 as stated fails: a header row without cell `n`, and a lone data row
without cell `n`, are rows that lack the cell, and the invocation completes
on both tables. -/
theorem missing_cell_without_fault :
    ((∃ r ∈ ascendingTable, r.length ≤ 0) ∧
      sortTable asciiLower 0 ascendingTable
        = some (.done
            { rows := [[], ["gamma"], ["beta"], ["alpha"]]
              dir := .desc
              switchcount := 3
              trace := [.flip, .swap .desc 1, .swap .desc 2, .swap .desc 1] })) ∧
    ((∃ r ∈ loneEmptyRowTable.drop 1, r.length ≤ 0) ∧
      sortTable asciiLower 0 loneEmptyRowTable
        = some (.done
            { rows := [["name"], []]
              dir := .desc
              switchcount := 0
              trace := [.flip] })) :=
  ⟨⟨⟨[], by decide, by decide⟩, by decide⟩, ⟨⟨[], by decide, by decide⟩, by decide⟩⟩

/-- C9, amended: for every table with two or more data rows and every
column index `n`, if some data row (a row at index 1 or more) lacks a cell
at index `n`, the invocation of `sortTable(n)` ends in a fault. -/
theorem sortTable_missing_cell (lower : String → String) (n : Nat) (table : Table)
    (htwo : 2 ≤ (table.drop 1).length) (hmiss : ∃ r ∈ table.drop 1, r.length ≤ n) :
    ∃ s, sortTable lower n table = some (.fault s) := by
  obtain ⟨out, dir, idxs, h⟩ := runSpec_exists lower n table
  cases out with
  | fault s => exact ⟨s, h.sortTable_eq⟩
  | done s =>
    exfalso
    have hperm : (s.rows.drop 1).Perm (table.drop 1) := h.perm_data
    have hall := (forLoop_noSwitch lower dir n _ 1 h.last).2 (by
      simp only [Outcome.state]
      rw [hperm.length_eq]
      exact htwo)
    obtain ⟨r, hr, hlen⟩ := hmiss
    have := hall r (hperm.mem_iff.mpr hr)
    omega

theorem sortTable_missing_cell_witness :
    2 ≤ (missingCellTable.drop 1).length ∧ (∃ r ∈ missingCellTable.drop 1, r.length ≤ 0) ∧
      ∃ s, sortTable asciiLower 0 missingCellTable = some (.fault s) :=
  ⟨by decide, ⟨[], by decide, by decide⟩,
    sortTable_missing_cell asciiLower 0 missingCellTable (by decide) ⟨[], by decide, by decide⟩⟩

/-- C10: for every table and every column index `n` that every data row
has, `sortTable(n)` terminates: the `while` loop exits, with the same final
state, within any number of passes from `table.length ^ 2 + 2` on; the
column may be mixed, with a swap test that is not transitive. -/
theorem sortTable_terminates (lower : String → String) (n : Nat) (table : Table)
    (hv : ValidColumn n table) :
    ∃ s, sortTable lower n table = some (.done s) ∧
      ∀ fuel, table.length * table.length + 2 ≤ fuel →
        whileLoop lower n fuel (initial table) = some (.done s) := by
  obtain ⟨s, dir, idxs, h⟩ := runSpec_valid lower n table hv
  exact ⟨s, h.sortTable_eq, h.total⟩

/-- The example of C10: a mixed column on which the ascending test runs in
a circle -/
theorem sortTable_terminates_witness :
    ValidColumn 0 cycleTable ∧
    (triggers asciiLower .asc 0 ["abc5"] ["abd3"] = true ∧
      triggers asciiLower .asc 0 ["abd3"] ["abd"] = true ∧
      triggers asciiLower .asc 0 ["abd"] ["abc5"] = true) ∧
    ∃ s, sortTable asciiLower 0 cycleTable = some (.done s) ∧
      ∀ fuel, cycleTable.length * cycleTable.length + 2 ≤ fuel →
        whileLoop asciiLower 0 fuel (initial cycleTable) = some (.done s) :=
  ⟨by decide, by decide, sortTable_terminates asciiLower 0 cycleTable (by decide)⟩

/-! ## Short tables, faults and the circle of the mixed rule -/

theorem swapIndices_append (a b : List Event) :
    swapIndices (a ++ b) = swapIndices a ++ swapIndices b := by
  induction a with
  | nil => rfl
  | cons e rest ih => cases e <;> simp [swapIndices, ih]

theorem swapIndices_map (dir : Dir) (idxs : List Nat) :
    swapIndices (idxs.map (Event.swap dir)) = idxs := by
  induction idxs with
  | nil => rfl
  | cons i rest ih => simp [swapIndices, ih]

/-- The swaps of the trace are the swaps of the run -/
theorem RunSpec.swapIndices_eq {lower : String → String} {n : Nat} {table : Table}
    {out : Outcome} {dir : Dir} {idxs : List Nat} (h : RunSpec lower n table out dir idxs) :
    swapIndices out.state.trace = idxs := by
  rw [h.trace_eq, swapIndices_append, swapIndices_map]
  cases dir <;> simp [swapIndices]

/-- C11: for every table with one data row, or with none, `sortTable(n)`
reads no cell and makes no comparison (both passes of the `for` loop end
without an iteration, whatever the rows hold), makes no swap, flips the
direction to descending once, and terminates with the rows as they were. -/
theorem sortTable_few_rows (lower : String → String) (n : Nat) (table : Table)
    (hfew : (table.drop 1).length ≤ 1) :
    sortTable lower n table
      = some (.done { rows := table, dir := .desc, switchcount := 0, trace := [.flip] }) ∧
    forLoop lower .asc n (table.drop 1) 1 = .noSwitch ∧
    forLoop lower .desc n (table.drop 1) 1 = .noSwitch := by
  have hscan : ∀ dir, forLoop lower dir n (table.drop 1) 1 = .noSwitch := by
    intro dir
    cases hd : table.drop 1 with
    | nil => exact forLoop_nil lower dir n 1
    | cons x rest =>
      cases rest with
      | nil => exact forLoop_single lower dir n 1 x
      | cons y more => rw [hd] at hfew; simp at hfew
  refine ⟨?_, hscan .asc, hscan .desc⟩
  show whileLoop lower n (table.length * table.length + 1 + 1) (initial table) = _
  rw [whileLoop_flip lower n _ (initial table) (hscan .asc) rfl rfl,
    whileLoop_done lower n _ (flipped (initial table)) (hscan .desc) (Or.inl rfl)]
  rfl

theorem sortTable_few_rows_witness :
    (loneRowTable.drop 1).length ≤ 1 ∧
    sortTable asciiLower 0 loneRowTable
      = some (.done { rows := loneRowTable, dir := .desc, switchcount := 0, trace := [.flip] }) ∧
    forLoop asciiLower .asc 0 (loneRowTable.drop 1) 1 = .noSwitch ∧
    forLoop asciiLower .desc 0 (loneRowTable.drop 1) 1 = .noSwitch :=
  ⟨by decide, sortTable_few_rows asciiLower 0 loneRowTable (by decide)⟩

/-- C13: a fault is not rolled back. On the table with the data rows b, a
and a row without cells, `sortTable(0)` swaps b and a and then faults, and
the rows at the fault are not in the initial order; and in every invocation
that faults, the rows at the fault are the initial rows with exactly the
swaps of the trace applied, as many as `switchcount` counts. -/
theorem fault_not_rolled_back :
    ((∃ r ∈ missingCellTable.drop 1, r.length ≤ 0) ∧
      sortTable asciiLower 0 missingCellTable
        = some (.fault
            { rows := [["name"], ["a"], ["b"], []]
              dir := .asc
              switchcount := 1
              trace := [.swap .asc 1] }) ∧
      [["name"], ["a"], ["b"], []] ≠ missingCellTable) ∧
    ∀ (lower : String → String) (n : Nat) (table : Table) (s : State),
      sortTable lower n table = some (.fault s) →
        s.rows = (swapIndices s.trace).foldl insertBefore table ∧
        s.switchcount = (swapIndices s.trace).length := by
  refine ⟨⟨⟨[], by decide, by decide⟩, by decide, by decide⟩, ?_⟩
  intro lower n table s hs
  obtain ⟨out, dir, idxs, h⟩ := runSpec_exists lower n table
  have hout : out = .fault s := by
    have := h.sortTable_eq
    rw [hs] at this
    exact (Option.some.inj this).symm
  subst hout
  have hidx := h.swapIndices_eq
  have hrows := h.rows_eq
  have hcount := h.switchcount_eq
  simp only [Outcome.state] at hidx hrows hcount
  rw [hidx]
  exact ⟨hrows, hcount⟩

theorem fault_not_rolled_back_witness :
    sortTable asciiLower 0 missingCellTable
      = some (.fault
          { rows := [["name"], ["a"], ["b"], []]
            dir := .asc
            switchcount := 1
            trace := [.swap .asc 1] }) ∧
    [["name"], ["a"], ["b"], []] = [1].foldl insertBefore missingCellTable ∧
    1 = [1].length :=
  ⟨by decide,
    fault_not_rolled_back.2 asciiLower 0 missingCellTable
      { rows := [["name"], ["a"], ["b"], []]
        dir := .asc
        switchcount := 1
        trace := [.swap .asc 1] } (by decide)⟩

/-- C14: the mixed rule is not transitive, and it shows. Under the
ascending test abc5 comes after abd3 on the numeric path (5 > 3), abd3 after
abd and abd after abc5 on the string path (abd does not parse), so the test
is not transitive; and on the column abc5, abd3, abd the invocation ends
with abd3, abc5, abd, where no adjacent pair triggers the test of the final
direction while the first and the last data row do. -/
theorem mixed_rule_not_transitive :
    (∃ a b c : String,
      (cellNumber asciiLower a).isSome ∧ (cellNumber asciiLower c).isSome ∧
      cellNumber asciiLower b = none ∧
      shouldSwitch asciiLower .asc a c = true ∧
      shouldSwitch asciiLower .asc c b = true ∧
      shouldSwitch asciiLower .asc b a = true ∧
      shouldSwitch asciiLower .asc c a = false) ∧
    ∃ s, sortTable asciiLower 0 cycleTable = some (.done s) ∧
      s.rows = [["key"], ["abd3"], ["abc5"], ["abd"]] ∧
      AdjacentOrdered asciiLower s.dir 0 (s.rows.drop 1) ∧
      ∃ x y, [x, y].Sublist (s.rows.drop 1) ∧ triggers asciiLower s.dir 0 x y = true :=
  ⟨⟨"abc5", "abd", "abd3", by decide, by decide, by decide, by decide, by decide, by decide,
      by decide⟩,
    { rows := [["key"], ["abd3"], ["abc5"], ["abd"]]
      dir := .asc
      switchcount := 1
      trace := [.swap .asc 1] },
    by decide, rfl, by decide, ["abd3"], ["abd"], by decide, by decide⟩

/-! ## Which rows change places -/

theorem insertBefore_map {α β : Type} (f : α → β) :
    ∀ (l : List α) (i : Nat), (insertBefore l i).map f = insertBefore (l.map f) i
  | [], i => by simp [insertBefore]
  | [x], 0 => by simp [insertBefore]
  | x :: y :: l, 0 => by simp [insertBefore_zero]
  | x :: l, i + 1 => by
    rw [insertBefore_succ, List.map_cons, List.map_cons, insertBefore_succ,
      insertBefore_map f l i]

/-- Moving an element up keeps a relation between earlier and later
elements when the pair that changes places satisfies it in its new order -/
theorem pairwise_insertBefore {α : Type} (R : α → α → Prop) :
    ∀ (l : List α) (i : Nat), List.Pairwise R l →
      (∀ x y, l[i]? = some x → l[i + 1]? = some y → R y x) →
      List.Pairwise R (insertBefore l i)
  | [], i, _, _ => by simp [insertBefore]
  | [x], 0, _, _ => by simp [insertBefore]
  | x :: y :: l, 0, h, hyx => by
    rw [insertBefore_zero]
    have h1 := List.pairwise_cons.mp h
    have h2 := List.pairwise_cons.mp h1.2
    refine List.pairwise_cons.mpr ⟨?_, List.pairwise_cons.mpr ⟨?_, h2.2⟩⟩
    · intro a ha
      rcases List.mem_cons.mp ha with rfl | ha
      · exact hyx _ _ rfl (by simp)
      · exact h2.1 a ha
    · intro a ha
      exact h1.1 a (List.mem_cons_of_mem _ ha)
  | x :: l, i + 1, h, hyx => by
    rw [insertBefore_succ]
    have h1 := List.pairwise_cons.mp h
    refine List.pairwise_cons.mpr ⟨?_, pairwise_insertBefore R l i h1.2 ?_⟩
    · intro a ha
      exact h1.1 a ((insertBefore_perm l i).mem_iff.mp ha)
    · intro a b ha hb
      exact hyx a b (by simpa using ha) (by simpa using hb)

/-- A `break` at `i` of the loop started at `i0`: the rows at that place
trigger the test -/
theorem forLoop_switchAt_pair (lower : String → String) (dir : Dir) (n : Nat) :
    ∀ (l : List Row) (i0 i : Nat), forLoop lower dir n l i0 = .switchAt i →
      ∃ j x y, i = i0 + j ∧ l[j]? = some x ∧ l[j + 1]? = some y ∧
        triggers lower dir n x y = true
  | [], i0, i, h => by simp [forLoop] at h
  | [x], i0, i, h => by simp [forLoop] at h
  | x :: y :: rest, i0, i, h => by
    have hc := forLoop_cells lower dir n i0 x y rest (by rw [h]; simp)
    rw [forLoop_step lower dir n i0 x y rest hc.1 hc.2] at h
    by_cases ht : triggers lower dir n x y = true
    · simp only [ht, if_true, Scan.switchAt.injEq] at h
      exact ⟨0, x, y, by omega, rfl, by simp, ht⟩
    · simp only [ht, Bool.false_eq_true, if_false] at h
      obtain ⟨j, a, b, hj, ha, hb, hab⟩ :=
        forLoop_switchAt_pair lower dir n (y :: rest) (i0 + 1) i h
      exact ⟨j + 1, a, b, by omega, by simpa using ha, by simpa using hb, hab⟩

/-- A `break` at `i` of a pass over the data rows: the rows at `i` and
`i + 1` of the table trigger the test -/
theorem switchAt_pair (lower : String → String) (dir : Dir) (n : Nat) (rows : Table) (i : Nat)
    (h : forLoop lower dir n (rows.drop 1) 1 = .switchAt i) :
    ∃ x y, rows[i]? = some x ∧ rows[i + 1]? = some y ∧ triggers lower dir n x y = true := by
  obtain ⟨j, x, y, hj, hx, hy, hxy⟩ := forLoop_switchAt_pair lower dir n _ 1 i h
  refine ⟨x, y, ?_, ?_, hxy⟩
  · rw [List.getElem?_drop] at hx
    rw [hj]; exact hx
  · rw [List.getElem?_drop] at hy
    rw [hj]
    rw [show 1 + j + 1 = 1 + (j + 1) by omega]
    exact hy

/-- Along the swaps of a run, a relation between earlier and later rows
that every swapped pair satisfies in its new order stays in force on the
rows with their input indices -/
theorem SwapRun.pairwise (lower : String → String) (dir : Dir) (n : Nat)
    (R : Nat × Row → Nat × Row → Prop)
    (hR : ∀ p q, triggers lower dir n p.2 q.2 = true → R q p) :
    ∀ (idxs : List Nat) (rows : Table) (tagged : List (Nat × Row)),
      tagged.map Prod.snd = rows → SwapRun lower dir n rows idxs →
      List.Pairwise R tagged →
      (idxs.foldl insertBefore tagged).map Prod.snd = idxs.foldl insertBefore rows ∧
      List.Pairwise R (idxs.foldl insertBefore tagged)
  | [], rows, tagged, hmap, _, hp => ⟨hmap, hp⟩
  | i :: idxs, rows, tagged, hmap, hrun, hp => by
    obtain ⟨x, y, hx, hy, hxy⟩ := switchAt_pair lower dir n rows i hrun.1
    simp only [List.foldl_cons]
    refine SwapRun.pairwise lower dir n R hR idxs (insertBefore rows i) (insertBefore tagged i)
      (by rw [insertBefore_map, hmap]) hrun.2 ?_
    refine pairwise_insertBefore R tagged i hp ?_
    intro p q hp1 hq1
    apply hR
    have hp2 : rows[i]? = some p.2 := by rw [← hmap, List.getElem?_map, hp1]; rfl
    have hq2 : rows[i + 1]? = some q.2 := by rw [← hmap, List.getElem?_map, hq1]; rfl
    rw [hx] at hp2
    rw [hy] at hq2
    cases hp2
    cases hq2
    exact hxy

theorem foldl_insertBefore_perm {α : Type} :
    ∀ (idxs : List Nat) (l : List α), (idxs.foldl insertBefore l).Perm l
  | [], _ => List.Perm.refl _
  | i :: idxs, l => by
    simp only [List.foldl_cons]
    exact (foldl_insertBefore_perm idxs (insertBefore l i)).trans (insertBefore_perm l i)

theorem enum_pairwise_lt (table : Table) :
    List.Pairwise (fun p q : Nat × Row => p.1 < q.1) table.enum := by
  have h : List.Pairwise (fun a b : Nat => a < b) (table.enum.map Prod.fst) := by
    rw [List.enum_map_fst]
    exact List.pairwise_lt_range _
  exact List.pairwise_map.mp h

/-- C15: stability and minimal reordering. For every table and valid
column `n`, with every row carrying its index in the input: of two rows the
one that stands first after `sortTable(n)` stood second before only if the
pair, in its input order, triggers the swap test of the direction used; so
two rows of which the later does not trigger the test against the earlier,
as when their cells compare equal, keep their relative order. -/
theorem sortTable_stable (lower : String → String) (n : Nat) (table : Table)
    (hv : ValidColumn n table) :
    ∃ s, sortTable lower n table = some (.done s) ∧
      (arrangement table s.trace).Perm table.enum ∧
      (arrangement table s.trace).map Prod.snd = s.rows ∧
      List.Pairwise (fun p q => q.1 < p.1 → triggers lower s.dir n q.2 p.2 = true)
        (arrangement table s.trace) ∧
      List.Pairwise (fun p q => triggers lower s.dir n q.2 p.2 = false → p.1 < q.1)
        (arrangement table s.trace) := by
  obtain ⟨s, dir, idxs, h⟩ := runSpec_valid lower n table hv
  have hidx : swapIndices s.trace = idxs := h.swapIndices_eq
  have hd : s.dir = dir := h.dir_eq
  have hrows : s.rows = idxs.foldl insertBefore table := h.rows_eq
  have harr : arrangement table s.trace = idxs.foldl insertBefore table.enum := by
    rw [arrangement, hidx]
  have hperm : (arrangement table s.trace).Perm table.enum := by
    rw [harr]; exact foldl_insertBefore_perm idxs _
  obtain ⟨hmap, hpair⟩ := SwapRun.pairwise lower dir n
    (fun p q => q.1 < p.1 → triggers lower dir n q.2 p.2 = true)
    (fun p q hpq _ => hpq) idxs table table.enum (List.enum_map_snd table) h.swaps
    ((enum_pairwise_lt table).imp fun hlt hgt => absurd hlt (by omega))
  have hnodup : List.Pairwise (fun p q : Nat × Row => p.1 ≠ q.1) (arrangement table s.trace) := by
    refine List.pairwise_map.mp ?_
    have : (List.map Prod.fst (arrangement table s.trace)).Nodup := by
      refine (hperm.map Prod.fst).nodup_iff.mpr ?_
      rw [List.enum_map_fst]
      exact List.nodup_range _
    exact this
  rw [← harr] at hmap hpair
  refine ⟨s, h.sortTable_eq, hperm, by rw [hmap, hrows], by rw [hd]; exact hpair, ?_⟩
  rw [hd]
  refine (hpair.and hnodup).imp ?_
  rintro p q ⟨h1, h2⟩ hno
  by_contra hlt
  have hq : q.1 < p.1 := by omega
  rw [h1 hq] at hno
  cases hno

/-- The example of C15: sorted on column 0, the two rows b keep their
order, and only the row a passes the row b that stood before it -/
theorem sortTable_stable_witness :
    ValidColumn 0 tieTable ∧
    sortTable asciiLower 0 tieTable
      = some (.done
          { rows := [["name", "id"], ["a", "2"], ["b", "1"], ["b", "3"]]
            dir := .asc
            switchcount := 1
            trace := [.swap .asc 1] }) ∧
    arrangement tieTable [.swap .asc 1]
      = [(0, ["name", "id"]), (2, ["a", "2"]), (1, ["b", "1"]), (3, ["b", "3"])] ∧
    ∃ s, sortTable asciiLower 0 tieTable = some (.done s) ∧
      (arrangement tieTable s.trace).Perm tieTable.enum ∧
      (arrangement tieTable s.trace).map Prod.snd = s.rows ∧
      List.Pairwise (fun p q => q.1 < p.1 → triggers asciiLower s.dir 0 q.2 p.2 = true)
        (arrangement tieTable s.trace) ∧
      List.Pairwise (fun p q => triggers asciiLower s.dir 0 q.2 p.2 = false → p.1 < q.1)
        (arrangement tieTable s.trace) :=
  ⟨by decide, by decide, by decide, sortTable_stable asciiLower 0 tieTable (by decide)⟩

/-! ## Insertion sort and swaps of unequal neighbours -/

/-- Two insertions commute when the second element is strictly below the
first and everything the first may precede the second may precede too -/
theorem orderedInsert_comm {α : Type} (r : α → α → Prop) [DecidableRel r] (x y : α)
    (hxy : ¬ r x y) (hyx : r y x) :
    ∀ (l : List α), (∀ b ∈ l, r x b → r y b) →
      List.orderedInsert r x (List.orderedInsert r y l)
        = List.orderedInsert r y (List.orderedInsert r x l)
  | [], _ => by simp [List.orderedInsert, hxy, hyx]
  | b :: l, h => by
    have hb := h b (List.mem_cons_self b l)
    by_cases hyb : r y b
    · by_cases hxb : r x b
      · simp [List.orderedInsert, hxy, hyx, hyb, hxb]
      · simp [List.orderedInsert, hxy, hyb, hxb]
    · have hxb : ¬ r x b := fun hx => hyb (hb hx)
      have ih := orderedInsert_comm r x y hxy hyx l
        (fun c hc => h c (List.mem_cons_of_mem b hc))
      simp [List.orderedInsert, hyb, hxb, ih]

/-- Insertion sort does not see the exchange of two neighbours of which
one is strictly below the other, for an order that is total and that is
transitive on the elements of the list -/
theorem insertionSort_insertBefore {α : Type} (r : α → α → Prop) [DecidableRel r]
    (htot : ∀ a b, r a b ∨ r b a) :
    ∀ (l : List α) (i : Nat),
      (∀ a ∈ l, ∀ b ∈ l, ∀ c ∈ l, r a b → r b c → r a c) →
      (∀ x y, l[i]? = some x → l[i + 1]? = some y → ¬ r x y ∨ ¬ r y x) →
      List.insertionSort r (insertBefore l i) = List.insertionSort r l
  | [], i, _, _ => by simp [insertBefore]
  | [x], 0, _, _ => by simp [insertBefore]
  | x :: y :: l, 0, htr, hne => by
    rw [insertBefore_zero]
    simp only [List.insertionSort]
    have hmem : ∀ b ∈ List.insertionSort r l, b ∈ x :: y :: l := fun b hb =>
      List.mem_cons_of_mem _ (List.mem_cons_of_mem _ ((List.mem_insertionSort r).mp hb))
    have hx : x ∈ x :: y :: l := by simp
    have hy : y ∈ x :: y :: l := by simp
    rcases hne x y rfl (by simp) with h | h
    · have hyx : r y x := (htot x y).resolve_left h
      exact (orderedInsert_comm r x y h hyx _
        (fun b hb hxb => htr y hy x hx b (hmem b hb) hyx hxb)).symm
    · have hxy : r x y := (htot y x).resolve_left h
      exact orderedInsert_comm r y x h hxy _
        (fun b hb hyb => htr x hx y hy b (hmem b hb) hxy hyb)
  | x :: l, i + 1, htr, hne => by
    rw [insertBefore_succ]
    simp only [List.insertionSort]
    rw [insertionSort_insertBefore r htot l i
      (fun a ha b hb c hc => htr a (List.mem_cons_of_mem _ ha) b (List.mem_cons_of_mem _ hb) c
        (List.mem_cons_of_mem _ hc))
      (fun a b ha hb => hne a b (by simpa using ha) (by simpa using hb))]

/-- A list whose neighbours are in order is its own insertion sort, for an
order that is transitive on the elements of the list -/
theorem insertionSort_of_chain {α : Type} (r : α → α → Prop) [DecidableRel r] (l : List α)
    (htr : ∀ a ∈ l, ∀ b ∈ l, ∀ c ∈ l, r a b → r b c → r a c)
    (hch : List.Chain' r l) : List.insertionSort r l = l := by
  haveI : IsTrans α (fun a b => a ∈ l ∧ b ∈ l ∧ r a b) :=
    ⟨fun a b c hab hbc => ⟨hab.1, hbc.2.1, htr a hab.1 b hab.2.1 c hbc.2.1 hab.2.2 hbc.2.2⟩⟩
  have hp : List.Pairwise (fun a b => a ∈ l ∧ b ∈ l ∧ r a b) l :=
    List.chain'_iff_pairwise.mp (List.Chain'.iff_mem.mp hch)
  exact List.Sorted.insertionSort_eq (hp.imp fun h => h.2.2)

/-! ## The key order and the swap test -/

theorem rowNumber_of_cell (lower : String → String) (n : Nat) (x : Row) (c : String)
    (h : x[n]? = some c) : rowNumber lower n x = cellNumber lower c := by
  simp [rowNumber, h]

theorem rowText_of_cell (lower : String → String) (n : Nat) (x : Row) (c : String)
    (h : x[n]? = some c) : rowText lower n x = some (lower c) := by
  simp [rowText, h]

/-- On two rows that have cell `n`, the key order is the negation of the
swap test -/
theorem keyLe_eq_not_triggers (lower : String → String) (dir : Dir) (n : Nat) (x y : Row)
    (hx : n < x.length) (hy : n < y.length) :
    keyLe lower dir n x y = !triggers lower dir n x y := by
  have hcx : x[n]? = some x[n] := List.getElem?_eq_getElem hx
  have hcy : y[n]? = some y[n] := List.getElem?_eq_getElem hy
  simp only [keyLe, triggers, rowNumber_of_cell lower n x _ hcx,
    rowNumber_of_cell lower n y _ hcy, rowText_of_cell lower n x _ hcx,
    rowText_of_cell lower n y _ hcy, hcx, hcy, shouldSwitch, cellNumber]
  cases parseFloat (stripNonNumeric (lower x[n])) <;>
    cases parseFloat (stripNonNumeric (lower y[n])) <;>
    cases dir <;> simp [← not_lt]

theorem triggers_cells (lower : String → String) (dir : Dir) (n : Nat) (x y : Row)
    (h : triggers lower dir n x y = true) : n < x.length ∧ n < y.length := by
  unfold triggers at h
  cases hx : x[n]? with
  | none => simp [hx] at h
  | some cx =>
    cases hy : y[n]? with
    | none => simp [hx, hy] at h
    | some cy =>
      exact ⟨(List.getElem?_eq_some_iff.mp hx).1, (List.getElem?_eq_some_iff.mp hy).1⟩

/-- The key order is total -/
theorem keyLe_total (lower : String → String) (dir : Dir) (n : Nat) (x y : Row) :
    keyLe lower dir n x y = true ∨ keyLe lower dir n y x = true := by
  by_cases hx : n < x.length
  · by_cases hy : n < y.length
    · rw [keyLe_eq_not_triggers lower dir n x y hx hy,
        keyLe_eq_not_triggers lower dir n y x hy hx]
      cases h : triggers lower dir n x y with
      | false => left; rfl
      | true => right; rw [triggers_asymm lower dir n x y h]; rfl
    · left
      have : y[n]? = none := List.getElem?_eq_none (by omega)
      simp [keyLe, rowNumber, rowText, this]
  · left
    have : x[n]? = none := List.getElem?_eq_none (by omega)
    simp [keyLe, rowNumber, rowText, this]

/-- Rows that trigger the swap test of some direction are strictly apart
in the key order of every direction -/
theorem keyLe_of_triggers (lower : String → String) (d e : Dir) (n : Nat) (x y : Row)
    (h : triggers lower d n x y = true) :
    ¬ keyLe lower e n x y = true ∨ ¬ keyLe lower e n y x = true := by
  obtain ⟨hx, hy⟩ := triggers_cells lower d n x y h
  rw [keyLe_eq_not_triggers lower e n x y hx hy, keyLe_eq_not_triggers lower e n y x hy hx]
  cases d <;> cases e
  · left; simp [h]
  · right; rw [triggers_desc]; simp [h]
  · right; rw [triggers_desc] at h; simp [h]
  · left; simp [h]

theorem Homogeneous.perm {lower : String → String} {n : Nat} {data data2 : List Row}
    (h : Homogeneous lower n data) (hp : data2.Perm data) : Homogeneous lower n data2 := by
  rcases h with h | h
  · exact Or.inl fun r hr => h r (hp.mem_iff.mp hr)
  · exact Or.inr fun r hr => h r (hp.mem_iff.mp hr)

theorem Homogeneous.cells {lower : String → String} {n : Nat} {data : List Row}
    (h : Homogeneous lower n data) : ∀ r ∈ data, n < r.length := by
  intro r hr
  rcases h with h | h
  · have := h r hr
    unfold rowNumber at this
    cases hc : r[n]? with
    | none => simp [hc] at this
    | some c => exact (List.getElem?_eq_some_iff.mp hc).1
  · obtain ⟨c, hc, _⟩ := h r hr
    exact (List.getElem?_eq_some_iff.mp hc).1

/-- On a homogeneous column the key order is transitive -/
theorem Homogeneous.trans {lower : String → String} {n : Nat} {data : List Row}
    (h : Homogeneous lower n data) (dir : Dir) :
    ∀ a ∈ data, ∀ b ∈ data, ∀ c ∈ data,
      keyLe lower dir n a b = true → keyLe lower dir n b c = true →
        keyLe lower dir n a c = true := by
  intro a ha b hb c hc
  rcases h with h | h
  · obtain ⟨na, hna⟩ := Option.isSome_iff_exists.mp (h a ha)
    obtain ⟨nb, hnb⟩ := Option.isSome_iff_exists.mp (h b hb)
    obtain ⟨nc, hnc⟩ := Option.isSome_iff_exists.mp (h c hc)
    simp only [keyLe, hna, hnb, hnc]
    cases dir <;> simp only [decide_eq_true_eq] <;> omega
  · obtain ⟨ca, hca, hta⟩ := h a ha
    obtain ⟨cb, hcb, htb⟩ := h b hb
    obtain ⟨cc, hcc, htc⟩ := h c hc
    simp only [keyLe, rowNumber_of_cell lower n a ca hca, rowNumber_of_cell lower n b cb hcb,
      rowNumber_of_cell lower n c cc hcc, rowText_of_cell lower n a ca hca,
      rowText_of_cell lower n b cb hcb, rowText_of_cell lower n c cc hcc, hta, htb, htc]
    cases dir <;> simp only [strGt, strLt, Bool.not_eq_true']
    · exact fun h1 h2 => ltUnits_not_trans _ _ _ h1 h2
    · exact fun h1 h2 => ltUnits_not_trans _ _ _ h2 h1

/-- On rows that all have cell `n`, the key order holds between neighbours
exactly when no adjacent pair triggers the swap test -/
theorem keyOrdered_iff (lower : String → String) (dir : Dir) (n : Nat) :
    ∀ (data : List Row), (∀ r ∈ data, n < r.length) →
      (keyOrdered lower dir n data = true ↔ AdjacentOrdered lower dir n data)
  | [], _ => by simp [keyOrdered, AdjacentOrdered]
  | [x], _ => by simp [keyOrdered, AdjacentOrdered]
  | x :: y :: rest, hv => by
    have ih := keyOrdered_iff lower dir n (y :: rest)
      (fun r hr => hv r (List.mem_cons_of_mem _ hr))
    unfold AdjacentOrdered at ih ⊢
    rw [List.chain'_cons, ← ih, keyOrdered,
      keyLe_eq_not_triggers lower dir n x y (hv x (by simp)) (hv y (by simp))]
    simp

theorem keyOrdered_chain (lower : String → String) (dir : Dir) (n : Nat) :
    ∀ (data : List Row), keyOrdered lower dir n data = true →
      List.Chain' (fun x y => keyLe lower dir n x y = true) data
  | [], _ => List.chain'_nil
  | [x], _ => List.chain'_singleton x
  | x :: y :: rest, h => by
    simp only [keyOrdered, Bool.and_eq_true] at h
    exact List.chain'_cons.mpr ⟨h.1, keyOrdered_chain lower dir n (y :: rest) h.2⟩

/-- Rows in key order are their own stable sort, on a homogeneous column -/
theorem stableSort_of_keyOrdered {lower : String → String} {n : Nat} {data : List Row}
    (h : Homogeneous lower n data) (dir : Dir) (ho : keyOrdered lower dir n data = true) :
    stableSort lower dir n data = data :=
  insertionSort_of_chain _ data (h.trans dir) (keyOrdered_chain lower dir n data ho)

/-! ## Runs on homogeneous columns -/

/-- The swaps of a run change no stable sort of the data rows, on a
homogeneous column -/
theorem SwapRun.stableSort_eq (lower : String → String) (d e : Dir) (n : Nat) :
    ∀ (idxs : List Nat) (rows : Table), SwapRun lower d n rows idxs →
      Homogeneous lower n (rows.drop 1) →
      stableSort lower e n ((idxs.foldl insertBefore rows).drop 1)
        = stableSort lower e n (rows.drop 1)
  | [], _, _, _ => rfl
  | i :: idxs, rows, hrun, hhom => by
    obtain ⟨hi, _, hdrop, _, _⟩ := switchAt_data lower d n rows i hrun.1
    obtain ⟨j, x, y, hj, hx, hy, hxy⟩ := forLoop_switchAt_pair lower d n _ 1 i hrun.1
    have hji : i - 1 = j := by omega
    simp only [List.foldl_cons]
    rw [SwapRun.stableSort_eq lower d e n idxs (insertBefore rows i) hrun.2
      (by rw [hdrop]; exact hhom.perm (insertBefore_perm _ _)), hdrop, hji]
    refine insertionSort_insertBefore _ (keyLe_total lower e n) (rows.drop 1) j
      (hhom.trans e) ?_
    intro a b ha hb
    have hax : a = x := by rw [hx] at ha; exact (Option.some.inj ha).symm
    have hby : b = y := by rw [hy] at hb; exact (Option.some.inj hb).symm
    rw [hax, hby]
    exact keyLe_of_triggers lower d e n x y hxy

theorem sortTable_nil (lower : String → String) (n : Nat) :
    sortTable lower n []
      = some (.done { rows := [], dir := .desc, switchcount := 0, trace := [.flip] }) :=
  rfl

/-- What an invocation does on a header and a homogeneous column: it
completes; the header stays; the final direction is descending exactly when
the input is in ascending key order; the data rows end in the key order of
the final direction, as the stable sort of the input in that direction; and
no stable sort of the data rows has changed -/
theorem homogeneous_run (lower : String → String) (n : Nat) (header : Row) (data : List Row)
    (hhom : Homogeneous lower n data) :
    ∃ s, sortTable lower n (header :: data) = some (.done s) ∧
      s.rows = header :: s.rows.drop 1 ∧
      Homogeneous lower n (s.rows.drop 1) ∧
      (s.dir = .desc ↔ keyOrdered lower .asc n data = true) ∧
      keyOrdered lower s.dir n (s.rows.drop 1) = true ∧
      s.rows.drop 1 = stableSort lower s.dir n data ∧
      ∀ e, stableSort lower e n (s.rows.drop 1) = stableSort lower e n data := by
  have hv : ValidColumn n (header :: data) := hhom.cells
  obtain ⟨s, dir, idxs, h⟩ := runSpec_valid lower n (header :: data) hv
  have hd : s.dir = dir := h.dir_eq
  have hrows : s.rows = idxs.foldl insertBefore (header :: data) := h.rows_eq
  have hperm : (s.rows.drop 1).Perm data := h.perm_data
  have hhom2 : Homogeneous lower n (s.rows.drop 1) := hhom.perm hperm
  have hhead : s.rows.head? = some header := by
    rw [hrows, (SwapRun.frame lower dir n idxs _ h.swaps).1]; rfl
  have hinv : ∀ e, stableSort lower e n (s.rows.drop 1) = stableSort lower e n data := by
    intro e
    rw [hrows]
    exact SwapRun.stableSort_eq lower dir e n idxs (header :: data) h.swaps hhom
  have hord : keyOrdered lower s.dir n (s.rows.drop 1) = true := by
    rw [hd]
    exact (keyOrdered_iff lower dir n _ hhom2.cells).mpr h.ordered
  refine ⟨s, h.sortTable_eq, ?_, hhom2, ?_, hord, ?_, hinv⟩
  · cases hr : s.rows with
    | nil => rw [hr] at hhead; cases hhead
    | cons a rest =>
      rw [hr] at hhead
      cases hhead
      rfl
  · rw [hd, h.flip_iff]
    exact (forLoop_noSwitch_iff lower .asc n data 1 hhom.cells).trans
      (keyOrdered_iff lower .asc n data hhom.cells).symm
  · rw [← hinv s.dir]
    exact (stableSort_of_keyOrdered hhom2 s.dir hord).symm

/-- C12: for every table whose cells in column `n` of the data rows are
all numeric or all non-numeric, the rows after `sortTable(n)` are those of
the reference: the header first, then the stable sort of the data rows by
the key order, ascending if the input has an adjacent pair out of ascending
order and descending otherwise. -/
theorem sortTable_refines_reference (lower : String → String) (n : Nat) (table : Table)
    (hhom : Homogeneous lower n (table.drop 1)) :
    ∃ s, sortTable lower n table = some (.done s) ∧
      s.rows = referenceSort lower n table := by
  cases table with
  | nil => exact ⟨_, sortTable_nil lower n, rfl⟩
  | cons header data =>
    obtain ⟨s, hs, hrows, _, hdir, _, hres, _⟩ := homogeneous_run lower n header data hhom
    refine ⟨s, hs, ?_⟩
    rw [hrows, hres, referenceSort]
    cases hd : s.dir with
    | asc =>
      have : ¬ keyOrdered lower .asc n data = true := fun hk => by
        rw [hdir.mpr hk] at hd; cases hd
      rw [if_neg this]
    | desc => rw [if_pos (hdir.mp hd)]

/-- The examples of C12: a numeric column out of order is sorted ascending,
a text column in ascending order is sorted descending -/
theorem sortTable_refines_reference_witness :
    Homogeneous asciiLower 0 (percentTable.drop 1) ∧
    referenceSort asciiLower 0 percentTable = [["load"], ["5%"], ["30%"], ["100%"]] ∧
    referenceSort asciiLower 0 ascendingTable = [[], ["gamma"], ["beta"], ["alpha"]] ∧
    ∃ s, sortTable asciiLower 0 percentTable = some (.done s) ∧
      s.rows = referenceSort asciiLower 0 percentTable :=
  ⟨Or.inl (by decide), by decide, by decide,
    sortTable_refines_reference asciiLower 0 percentTable (Or.inl (by decide))⟩

/-- C16 as stated fails: on a column whose two cells are the same number
the first click ends descending and leaves the rows as they are, and so
does the second, which does not yield the opposite direction. -/
theorem equal_keys_same_direction :
    Homogeneous asciiLower 0 (equalKeysTable.drop 1) ∧
    sortTable asciiLower 0 equalKeysTable
      = some (.done { rows := equalKeysTable, dir := .desc, switchcount := 0, trace := [.flip] }) ∧
    ¬ ∃ s1 s2, sortTable asciiLower 0 equalKeysTable = some (.done s1) ∧
        sortTable asciiLower 0 s1.rows = some (.done s2) ∧ s2.dir ≠ s1.dir := by
  have hrun : sortTable asciiLower 0 equalKeysTable
      = some (.done { rows := equalKeysTable, dir := .desc, switchcount := 0,
                      trace := [.flip] }) := by decide
  refine ⟨Or.inl (by decide), hrun, ?_⟩
  rintro ⟨s1, s2, h1, h2, hne⟩
  rw [hrun] at h1
  cases h1
  simp only at h2
  rw [hrun] at h2
  cases h2
  exact hne rfl

/-- Rows in the key order of `dir`, on a homogeneous column: any earlier
row may stand before any later one -/
theorem pairwise_of_keyOrdered {lower : String → String} {n : Nat} {data : List Row}
    (h : Homogeneous lower n data) (dir : Dir) (ho : keyOrdered lower dir n data = true) :
    List.Pairwise (fun a b => a ∈ data ∧ b ∈ data ∧ keyLe lower dir n a b = true) data := by
  haveI : IsTrans Row (fun a b => a ∈ data ∧ b ∈ data ∧ keyLe lower dir n a b = true) :=
    ⟨fun a b c hab hbc =>
      ⟨hab.1, hbc.2.1, h.trans dir a hab.1 b hab.2.1 c hbc.2.1 hab.2.2 hbc.2.2⟩⟩
  exact List.chain'_iff_pairwise.mp
    (List.Chain'.iff_mem.mp (keyOrdered_chain lower dir n data ho))

/-- Rows in ascending and in descending key order, on a homogeneous column,
have equal keys: no two of them trigger the test of either direction -/
theorem equal_keys_of_keyOrdered {lower : String → String} {n : Nat} {data : List Row}
    (h : Homogeneous lower n data) (ha : keyOrdered lower .asc n data = true)
    (hd : keyOrdered lower .desc n data = true) :
    List.Pairwise
      (fun x y => triggers lower .asc n x y = false ∧ triggers lower .desc n x y = false)
      data := by
  refine ((pairwise_of_keyOrdered h .asc ha).and (pairwise_of_keyOrdered h .desc hd)).imp ?_
  rintro x y ⟨⟨hx, hy, h1⟩, ⟨_, _, h2⟩⟩
  rw [keyLe_eq_not_triggers lower .asc n x y (h.cells x hx) (h.cells y hy)] at h1
  rw [keyLe_eq_not_triggers lower .desc n x y (h.cells x hx) (h.cells y hy)] at h2
  exact ⟨by simpa using h1, by simpa using h2⟩

/-- C16, amended: for every table whose cells in column `n` of the data
rows are all numeric or all non-numeric, three invocations of
`sortTable(n)` in a row leave the rows in the order that one invocation
leaves them in. When the first invocation ends descending on data rows of
which no adjacent pair triggers the ascending test either, the keys are all
equal (no two data rows trigger the test of either direction), and the
second invocation ends descending again and leaves the rows of the first as
they are; in every other case the second invocation ends in the direction
opposite to the first. -/
theorem sortTable_thrice (lower : String → String) (n : Nat) (table : Table)
    (hhom : Homogeneous lower n (table.drop 1)) :
    ∃ s1 s2 s3, sortTable lower n table = some (.done s1) ∧
      sortTable lower n s1.rows = some (.done s2) ∧
      sortTable lower n s2.rows = some (.done s3) ∧
      s3.rows = s1.rows ∧
      ((s1.dir = .desc ∧ AdjacentOrdered lower .asc n (s1.rows.drop 1)) →
        s2.dir = .desc ∧ s2.rows = s1.rows ∧
        List.Pairwise
          (fun x y => triggers lower .asc n x y = false ∧ triggers lower .desc n x y = false)
          (s1.rows.drop 1)) ∧
      (¬ (s1.dir = .desc ∧ AdjacentOrdered lower .asc n (s1.rows.drop 1)) →
        s2.dir ≠ s1.dir) := by
  cases table with
  | nil =>
    refine ⟨_, _, _, sortTable_nil lower n, sortTable_nil lower n, sortTable_nil lower n, rfl,
      fun _ => ⟨rfl, rfl, List.Pairwise.nil⟩, fun hno => ?_⟩
    exact absurd ⟨rfl, List.chain'_nil⟩ hno
  | cons header data =>
    obtain ⟨s1, hs1, hr1, hhom1, hdir1, hord1, hres1, hinv1⟩ :=
      homogeneous_run lower n header data hhom
    obtain ⟨s2, hs2, hr2, hhom2, hdir2, hord2, hres2, hinv2⟩ :=
      homogeneous_run lower n header (s1.rows.drop 1) hhom1
    obtain ⟨s3, hs3, hr3, _, hdir3, _, hres3, _⟩ :=
      homogeneous_run lower n header (s2.rows.drop 1) hhom2
    rw [← hr1] at hs2
    rw [← hr2] at hs3
    have hko : keyOrdered lower .asc n (s1.rows.drop 1) = true
        ↔ AdjacentOrdered lower .asc n (s1.rows.drop 1) :=
      keyOrdered_iff lower .asc n _ hhom1.cells
    have hdrop : s3.rows.drop 1 = s1.rows.drop 1 := by
      cases hd1 : s1.dir with
      | asc =>
        rw [hd1] at hord1
        have hd2 : s2.dir = .desc := hdir2.mpr hord1
        cases hd3 : s3.dir with
        | asc =>
          rw [hres3, hd3, hinv2 .asc]
          exact stableSort_of_keyOrdered hhom1 .asc hord1
        | desc =>
          have hk2 : keyOrdered lower .asc n (s2.rows.drop 1) = true := hdir3.mp hd3
          have h21 : s2.rows.drop 1 = s1.rows.drop 1 := by
            rw [← stableSort_of_keyOrdered hhom2 .asc hk2, hinv2 .asc]
            exact stableSort_of_keyOrdered hhom1 .asc hord1
          rw [hres3, hd3, h21, ← hd2, ← hres2, h21]
      | desc =>
        rw [hd1] at hord1
        have hk0 : keyOrdered lower .asc n data = true := hdir1.mp hd1
        cases hd2 : s2.dir with
        | asc =>
          have h2 : s2.rows.drop 1 = data := by
            rw [hres2, hd2, hinv1 .asc]
            exact stableSort_of_keyOrdered hhom .asc hk0
          have hd3 : s3.dir = .desc := hdir3.mpr (by rw [h2]; exact hk0)
          rw [hres3, hd3, hinv2 .desc]
          exact stableSort_of_keyOrdered hhom1 .desc hord1
        | desc =>
          have h21 : s2.rows.drop 1 = s1.rows.drop 1 := by
            rw [hres2, hd2]
            exact stableSort_of_keyOrdered hhom1 .desc hord1
          have hk1 : keyOrdered lower .asc n (s1.rows.drop 1) = true := hdir2.mp hd2
          have hd3 : s3.dir = .desc := hdir3.mpr (by rw [h21]; exact hk1)
          rw [hres3, hd3, h21]
          exact stableSort_of_keyOrdered hhom1 .desc hord1
    refine ⟨s1, s2, s3, hs1, hs2, hs3, by rw [hr3, hr1, hdrop], ?_, ?_⟩
    · rintro ⟨hd1, hao⟩
      have hk1 : keyOrdered lower .asc n (s1.rows.drop 1) = true := hko.mpr hao
      have hd2 : s2.dir = .desc := hdir2.mpr hk1
      rw [hd1] at hord1
      have h21 : s2.rows.drop 1 = s1.rows.drop 1 := by
        rw [hres2, hd2]
        exact stableSort_of_keyOrdered hhom1 .desc hord1
      exact ⟨hd2, by rw [hr2, hr1, h21], equal_keys_of_keyOrdered hhom1 hk1 hord1⟩
    · intro hno
      cases hd1 : s1.dir with
      | asc =>
        rw [hd1] at hord1
        rw [hdir2.mpr hord1]
        intro h; cases h
      | desc =>
        have hnk : ¬ keyOrdered lower .asc n (s1.rows.drop 1) = true :=
          fun hk => hno ⟨hd1, hko.mp hk⟩
        cases hd2 : s2.dir with
        | asc => intro h; cases h
        | desc => exact absurd (hdir2.mp hd2) hnk

/-- The example of C16: the percentages are sorted ascending by the first
click, descending by the second, and ascending again by the third -/
theorem sortTable_thrice_witness :
    Homogeneous asciiLower 0 (percentTable.drop 1) ∧
    (∃ s1 s2 s3, sortTable asciiLower 0 percentTable = some (.done s1) ∧
      sortTable asciiLower 0 s1.rows = some (.done s2) ∧
      sortTable asciiLower 0 s2.rows = some (.done s3) ∧
      s3.rows = s1.rows ∧
      ((s1.dir = .desc ∧ AdjacentOrdered asciiLower .asc 0 (s1.rows.drop 1)) →
        s2.dir = .desc ∧ s2.rows = s1.rows ∧
        List.Pairwise
          (fun x y =>
            triggers asciiLower .asc 0 x y = false ∧ triggers asciiLower .desc 0 x y = false)
          (s1.rows.drop 1)) ∧
      (¬ (s1.dir = .desc ∧ AdjacentOrdered asciiLower .asc 0 (s1.rows.drop 1)) →
        s2.dir ≠ s1.dir)) ∧
    sortTable asciiLower 0 percentTable
      = some (.done
          { rows := [["load"], ["5%"], ["30%"], ["100%"]]
            dir := .asc
            switchcount := 1
            trace := [.swap .asc 1] }) ∧
    (sortTable asciiLower 0 [["load"], ["5%"], ["30%"], ["100%"]]).map (fun o => o.state.rows)
      = some [["load"], ["100%"], ["30%"], ["5%"]] ∧
    (sortTable asciiLower 0 [["load"], ["100%"], ["30%"], ["5%"]]).map (fun o => o.state.rows)
      = some [["load"], ["5%"], ["30%"], ["100%"]] :=
  ⟨Or.inl (by decide), sortTable_thrice asciiLower 0 percentTable (Or.inl (by decide)),
    by decide, by decide, by decide⟩

end OverviewServers
